import Mathlib

/-!
The program `gvs`, a Go version manager (`main.go`)

A shallow embedding of the version lifecycle code of `main.go`:
`normalizeVersionName`, `isVersionInstalled`, `useVersion`, `removeVersion`,
`installVersion`, `listRemoteVersions`, `listLocalVersions` and
`getInstalledVersions`.

Go strings are Lean strings, `strings.HasPrefix` with the ASCII argument
`"go"` is a comparison of the leading characters. The home directory that
`user.Current()` reports is an absolute clean path, given by its components
(`none` when the lookup fails).

The operating system is a finite table from the resolved (link-free)
absolute paths of the entries to nodes (directory, regular file, symbolic
link). Path resolution follows symbolic links in every component, `Lstat`,
`Readlink`, `Remove`, `RemoveAll` and `Symlink` leave a link in the last
component alone, `Stat` follows it too; at most 40 links are followed in
one resolution. The calls of package `os` the program makes are functions
on that table. They fail for what the table shows (a missing entry, a
non-directory on the way, an entry in the way, a non-empty directory) and
for what it does not show: `deny` tells for every call and path whether the
system refuses it (permissions, read-only file system, I/O error).

External commands and the HTTP fetch with its regular expression match are
inputs of the functions that use them.
-/

namespace Gvs

/-! ## Strings -/

/-- Go `strings.HasPrefix(s, p)`. -/
def hasPrefix (s p : String) : Bool := p.data.isPrefixOf s.data

/-- Go `strings.TrimPrefix(s, p)`: `s` without the leading `p` when it has one. -/
def trimPrefix (s p : String) : String :=
  if hasPrefix s p then String.mk (s.data.drop p.data.length) else s

/-- Source `normalizeVersionName` (main.go 300-306). -/
def normalizeVersionName (version : String) : String :=
  if !hasPrefix version "go" then "go" ++ version else version

/-! ## Paths -/

/-- An absolute clean path, as the list of its components from the root. -/
abbrev Path := List String

/-- The pieces of a string between its `/` separators. -/
def splitSlash : List Char → List (List Char)
  | [] => [[]]
  | c :: cs =>
    if c = '/' then [] :: splitSlash cs
    else
      match splitSlash cs with
      | [] => [[c]]
      | h :: t => (c :: h) :: t

/-- The components of a path string. -/
def splitComps (s : String) : List String := (splitSlash s.data).map String.mk

/-- One step of `filepath.Clean` on a rooted path: empty and `.` pieces are
dropped, `..` removes the last component (and is dropped at the root). -/
def cleanStep (stack : Path) (piece : String) : Path :=
  if piece = "" ∨ piece = "." then stack
  else if piece = ".." then stack.dropLast
  else stack ++ [piece]

/-- Go `filepath.Join(base, elems...)` for an absolute clean `base`: the
elements are joined with `/` and the result is cleaned. -/
def joinPath (base : Path) (elems : List String) : Path :=
  (elems.flatMap splitComps).foldl cleanStep base

/-- The string form of a path, as `filepath.Join` returns it. -/
def render (p : Path) : String := "/" ++ "/".intercalate p

/-! ## Errors -/

/-- The `errno` values the modelled system calls report. -/
inductive Errno
  | ENOENT | ENOTDIR | EEXIST | ENOTEMPTY | EINVAL | ELOOP | EBUSY
  | EACCES | EPERM | EROFS | EIO
  deriving DecidableEq, Repr

/-- The errors the functions of `main.go` return; each constructor is one
`fmt.Errorf` (or returned error) of the source. -/
inductive Err
  /-- `fmt.Errorf("%w: %s", ErrVersionNotFound, version)` -/
  | versionNotFound (version : String)
  /-- `failed to get current user` -/
  | currentUser
  /-- `failed to check if version is installed` -/
  | checkInstalled (e : Errno)
  /-- `failed to create bin directory` -/
  | createBinDir (e : Errno)
  /-- `failed to remove existing symlink` -/
  | removeExistingSymlink (e : Errno)
  /-- `failed to create symlink` -/
  | createSymlink (e : Errno)
  /-- `failed to remove Go version` -/
  | removeGoVersion (e : Errno)
  /-- `failed to read symlink` -/
  | readSymlink (e : Errno)
  /-- `failed to remove symlink` -/
  | removeSymlink (e : Errno)
  /-- `failed to read versions directory` -/
  | readVersionsDir (e : Errno)
  /-- `failed to install Go version downloader` -/
  | installDownloader
  /-- `failed to download Go version` -/
  | downloadVersion
  /-- `failed to create request`, `failed to get Go versions`, `failed to read response body` -/
  | fetch
  deriving DecidableEq, Repr

/-- Go `errors.Is(err, ErrVersionNotFound)`: only the error built with
`%w` from `ErrVersionNotFound` wraps it. -/
def Err.wrapsVersionNotFound : Err → Bool
  | .versionNotFound _ => true
  | _ => false

/-! ## Remote catalog -/

/-- The loop of `listRemoteVersions` (main.go 118-131) over the captured
group 1 of each match: `versions` holds the keys set to true in the map,
`count` the counter; the result is the printed lines. -/
def listRemoteLoop (limit : Int) : List String → List String → Int → List String
  | [], _, _ => []
  | m :: rest, versions, count =>
    if !versions.contains m then
      let count1 := count + 1
      if limit > 0 ∧ count1 ≥ limit then [m]
      else m :: listRemoteLoop limit rest (m :: versions) count1
    else listRemoteLoop limit rest versions count

/-- Source `listRemoteVersions` (main.go 90-134). `fetched` is the outcome of
the request, the read of the body and `FindAllStringSubmatch`: the captured
versions in document order, or a failure. Returns the printed lines and the
error. -/
def listRemoteVersions (fetched : Option (List String)) (limit : Int) :
    List String × Option Err :=
  match fetched with
  | none => ([], some Err.fetch)
  | some ms => (listRemoteLoop limit ms [] 0, none)

/-- What the spec says of the catalog: each version once, at its first
occurrence, in document order. -/
def firstOccurrences : List String → List String
  | [] => []
  | x :: xs => x :: (firstOccurrences xs).filter (fun y => y ≠ x)

/-! ## Install -/

/-- An external command: program and arguments. -/
structure Cmd where
  prog : String
  args : List String
  deriving DecidableEq, Repr

/-- The outcome of `installVersion`: the commands run, the lines printed by
the program itself, the error. -/
structure InstallResult where
  cmds : List Cmd
  out : List String
  err : Option Err
  deriving DecidableEq, Repr

/-- Source `installVersion` (main.go 162-197). `run c` tells whether the
external command `c` exits successfully, `usr` is the home directory of
`user.Current()` (`none` when the lookup fails). -/
def installVersion (usr : Option Path) (run : Cmd → Bool) (version : String) :
    InstallResult :=
  let bareVersion := trimPrefix version "go"
  let out1 := ["Installing Go " ++ bareVersion ++ "..."]
  let installCmd : Cmd := ⟨"go", ["install", "golang.org/dl/go" ++ bareVersion ++ "@latest"]⟩
  if !run installCmd then ⟨[installCmd], out1, some Err.installDownloader⟩
  else
    match usr with
    | none => ⟨[installCmd], out1, some Err.currentUser⟩
    | some home =>
      let goDownloader := render (joinPath home ["go", "bin", "go" ++ bareVersion])
      let downloadCmd : Cmd := ⟨goDownloader, ["download"]⟩
      if !run downloadCmd then ⟨[installCmd, downloadCmd], out1, some Err.downloadVersion⟩
      else
        ⟨[installCmd, downloadCmd],
          out1 ++ ["Go " ++ bareVersion ++ " installed successfully."], none⟩

/-! ## File system -/

/-- A component that can name a directory entry: not empty, no separator,
neither `.` nor `..`. -/
def validName (c : String) : Bool :=
  !(c = "" ∨ c = "." ∨ c = ".." ∨ '/' ∈ c.data)

/-- What a path names: a directory, a regular file or a symbolic link with
its stored target string. -/
inductive Node
  | dir
  | file
  | symlink (target : String)
  deriving DecidableEq, Repr

/-- The file system: a table from the resolved paths of the entries to
their nodes. The root is always a directory and has no row. -/
abbrev FS := List (Path × Node)

/-- The first row of the table for a path. -/
def lookupNode : FS → Path → Option Node
  | [], _ => none
  | (q, n) :: rest, p => if q = p then some n else lookupNode rest p

/-- The node at a resolved path; the root is a directory. -/
def node (fs : FS) (p : Path) : Option Node :=
  if p = [] then some Node.dir else lookupNode fs p

/-- The calls the system can refuse. -/
inductive Op
  | stat | lstat | readlink | readDir | mkdir | remove | symlink
  deriving DecidableEq, Repr

/-- Why the system refuses a call that the table would allow. -/
inductive Denial
  | EACCES | EPERM | EROFS | EIO
  deriving DecidableEq, Repr

/-- The `errno` of a refusal. -/
def Denial.errno : Denial → Errno
  | .EACCES => .EACCES
  | .EPERM => .EPERM
  | .EROFS => .EROFS
  | Denial.EIO => Errno.EIO

/-- What the system refuses: for a call that reads (`stat`, `lstat`,
`readlink`, `readDir`) and the path it is given, for a call that changes
an entry (`mkdir`, `remove`, `symlink`) and the resolved path of that
entry. -/
abbrev Denied := Op → Path → Option Denial

/-- Path resolution from the resolved directory `cur` along the components
`cs`, for one round of link following: `next` resolves the rest once a
link has been read. A link in the last component is returned as it is when
`followLast` is false. Gives the resolved path and its node. -/
def walkStep (next : Path → List String → Except Errno (Path × Node)) (fs : FS)
    (followLast : Bool) : Path → List String → Except Errno (Path × Node)
  | cur, [] =>
    match node fs cur with
    | some n => .ok (cur, n)
    | none => .error .ENOENT
  | cur, c :: cs =>
    match node fs cur with
    | some .dir =>
      if c = "" ∨ c = "." then walkStep next fs followLast cur cs
      else if c = ".." then walkStep next fs followLast cur.dropLast cs
      else
        match node fs (cur ++ [c]) with
        | some (.symlink t) =>
          if cs = [] ∧ followLast = false then .ok (cur ++ [c], Node.symlink t)
          else if t = "" then .error .ENOENT
          else next (if hasPrefix t "/" then [] else cur) (splitComps t ++ cs)
        | _ => walkStep next fs followLast (cur ++ [c]) cs
    | some _ => .error .ENOTDIR
    | none => .error .ENOENT

/-- Path resolution that follows at most `fuel` links (`ELOOP` beyond). -/
def walk (fs : FS) (followLast : Bool) : Nat → Path → List String → Except Errno (Path × Node)
  | 0 => walkStep (fun _ _ => .error .ELOOP) fs followLast
  | fuel + 1 => walkStep (walk fs followLast fuel) fs followLast

/-- The entry `c` of a resolved parent directory, as the last step of a
resolution that leaves a final link alone. -/
def lastStep (fs : FS) (c : String) (parent : Except Errno (Path × Node)) :
    Except Errno (Path × Node) :=
  match parent with
  | .ok (par, .dir) =>
    match node fs (par ++ [c]) with
    | some m => .ok (par ++ [c], m)
    | none => .error .ENOENT
  | .ok _ => .error .ENOTDIR
  | .error e => .error e

/-- The resolved paths whose nodes one round of `walkStep` reads. -/
def readsStep (next : Path → List String → List Path) (fs : FS) (followLast : Bool) :
    Path → List String → List Path
  | cur, [] => [cur]
  | cur, c :: cs =>
    cur ::
      match node fs cur with
      | some .dir =>
        if c = "" ∨ c = "." then readsStep next fs followLast cur cs
        else if c = ".." then readsStep next fs followLast cur.dropLast cs
        else
          (cur ++ [c]) ::
            match node fs (cur ++ [c]) with
            | some (.symlink t) =>
              if cs = [] ∧ followLast = false then []
              else if t = "" then []
              else next (if hasPrefix t "/" then [] else cur) (splitComps t ++ cs)
            | _ => readsStep next fs followLast (cur ++ [c]) cs
      | _ => []

/-- The resolved paths whose nodes `walk` reads. -/
def reads (fs : FS) (followLast : Bool) : Nat → Path → List String → List Path
  | 0 => readsStep (fun _ _ => []) fs followLast
  | fuel + 1 => readsStep (reads fs followLast fuel) fs followLast

/-- Resolution of a path that leaves a link in the last component alone, as
`lstat(2)` does: the resolved path of the entry and its node. -/
def lstat (fs : FS) (p : Path) : Except Errno (Path × Node) := walk fs false 40 [] p

/-- Resolution of a path that follows every link, as `stat(2)` does. -/
def stat (fs : FS) (p : Path) : Except Errno (Path × Node) := walk fs true 40 [] p

/-- The entries `lstat` reads when it resolves a path. -/
def lstatReads (fs : FS) (p : Path) : List Path := reads fs false 40 [] p

/-- The entries `stat` reads when it resolves a path. -/
def statReads (fs : FS) (p : Path) : List Path := reads fs true 40 [] p

/-- Go `os.Stat`. -/
def osStat (deny : Denied) (fs : FS) (p : Path) : Except Errno Node :=
  match deny .stat p with
  | some d => .error d.errno
  | none =>
    match stat fs p with
    | .ok (_, n) => .ok n
    | .error e => .error e

/-- Go `os.Lstat`. -/
def osLstat (deny : Denied) (fs : FS) (p : Path) : Except Errno Node :=
  match deny .lstat p with
  | some d => .error d.errno
  | none =>
    match lstat fs p with
    | .ok (_, n) => .ok n
    | .error e => .error e

/-- Go `os.Readlink`. -/
def readlink (deny : Denied) (fs : FS) (p : Path) : Except Errno String :=
  match deny .readlink p with
  | some d => .error d.errno
  | none =>
    match lstat fs p with
    | .ok (_, .symlink t) => .ok t
    | .ok _ => .error .EINVAL
    | .error e => .error e

/-- The system call `mkdir`: the parent must resolve to a directory and
nothing may be at the entry. -/
def mkdir (deny : Denied) (fs : FS) (p : Path) : FS × Option Errno :=
  match p.getLast? with
  | none => (fs, some .EEXIST)
  | some c =>
    match stat fs p.dropLast with
    | .ok (par, .dir) =>
      match node fs (par ++ [c]) with
      | some _ => (fs, some .EEXIST)
      | none =>
        match deny .mkdir (par ++ [c]) with
        | some d => (fs, some d.errno)
        | none => (fs ++ [(par ++ [c], Node.dir)], none)
    | .ok _ => (fs, some .ENOTDIR)
    | .error e => (fs, some e)

/-- The end of `os.MkdirAll` once the parent has been made: `Mkdir`, and
when that fails a look whether the directory is there all the same. -/
def mkdirFinish (deny : Denied) (p : Path) (made : FS × Option Errno) : FS × Option Errno :=
  match made with
  | (fs1, some e) => (fs1, some e)
  | (fs1, none) =>
    match mkdir deny fs1 p with
    | (fs2, none) => (fs2, none)
    | (fs2, some e) =>
      match lstat fs2 p with
      | .ok (_, .dir) => (fs2, none)
      | _ => (fs2, some e)

/-- Go `os.MkdirAll` for a path with `k` components above its last one:
nothing to do when `Stat` finds a directory, `ENOTDIR` when it finds
anything else, otherwise the parent first and then the directory. -/
def mkdirAllAux (deny : Denied) : Nat → FS → Path → FS × Option Errno
  | 0, fs, p =>
    match stat fs p with
    | .ok (_, .dir) => (fs, none)
    | .ok _ => (fs, some .ENOTDIR)
    | .error _ => mkdirFinish deny p (fs, none)
  | k + 1, fs, p =>
    match stat fs p with
    | .ok (_, .dir) => (fs, none)
    | .ok _ => (fs, some .ENOTDIR)
    | .error _ => mkdirFinish deny p (mkdirAllAux deny k fs p.dropLast)

/-- Go `os.MkdirAll`. -/
def mkdirAll (deny : Denied) (fs : FS) (p : Path) : FS × Option Errno :=
  mkdirAllAux deny (p.length - 1) fs p

/-- Whether some row lies strictly below the path. -/
def hasChildren (fs : FS) (p : Path) : Bool :=
  fs.any fun e => decide (p <+: e.1) && decide (e.1 ≠ p)

/-- Go `os.Remove`: removes a file, a link or an empty directory. -/
def remove (deny : Denied) (fs : FS) (p : Path) : FS × Option Errno :=
  match lstat fs p with
  | .error e => (fs, some e)
  | .ok (c, n) =>
    match deny .remove c with
    | some d => (fs, some d.errno)
    | none =>
      match n with
      | .dir =>
        if c = [] then (fs, some .EBUSY)
        else if hasChildren fs c then (fs, some .ENOTEMPTY)
        else (fs.filter fun e => decide (e.1 ≠ c), none)
      | _ => (fs.filter fun e => decide (e.1 ≠ c), none)

/-- Go `os.Symlink(target, p)`: creates the link when nothing is at `p` and
its parent resolves to a directory. -/
def symlink (deny : Denied) (fs : FS) (target : String) (p : Path) : FS × Option Errno :=
  match lstat fs p with
  | .ok _ => (fs, some .EEXIST)
  | .error _ =>
    match p.getLast? with
    | none => (fs, some .EEXIST)
    | some c =>
      match stat fs p.dropLast with
      | .ok (par, .dir) =>
        match deny .symlink (par ++ [c]) with
        | some d => (fs, some d.errno)
        | none => (fs ++ [(par ++ [c], Node.symlink target)], none)
      | .ok _ => (fs, some .ENOTDIR)
      | .error e => (fs, some e)

/-- Whether a row at or below `q` is refused removal: such a row and the
directories above it stay when a tree is removed. -/
def pinned (deny : Denied) (fs : FS) (q : Path) : Bool :=
  fs.any fun e => decide (q <+: e.1) && (deny .remove e.1).isSome

/-- The first refusal among the rows at or below `c`. -/
def firstRefusal (deny : Denied) (fs : FS) (c : Path) : Option Errno :=
  match fs.find? fun e => decide (c <+: e.1) && (deny .remove e.1).isSome with
  | some e => (deny .remove e.1).map Denial.errno
  | none => none

/-- Go `os.RemoveAll`: removes the entry at the path and everything below
it; a path that does not exist is no error; what the system refuses to
remove stays, with the directories above it, and the call fails. The root
cannot be removed: its contents go and the call fails. -/
def removeAll (deny : Denied) (fs : FS) (p : Path) : FS × Option Errno :=
  if p = [] then ([], some .EBUSY)
  else
    match lstat fs p with
    | .ok (c, _) =>
      (fs.filter fun e => !decide (c <+: e.1) || pinned deny fs e.1, firstRefusal deny fs c)
    | .error .ENOENT => (fs, none)
    | .error e => (fs, some e)

/-- A directory entry as `os.ReadDir` reports it: name and `IsDir()`. -/
structure DirEntry where
  name : String
  isDir : Bool
  deriving DecidableEq, Repr

/-- Order of file names (by character code, as Go compares strings). -/
def leChars : List Char → List Char → Bool
  | [], _ => true
  | _ :: _, [] => false
  | a :: as, b :: bs => a.toNat < b.toNat || (a == b && leChars as bs)

/-- The rows directly below a resolved path, as directory entries in table
order. -/
def children (fs : FS) (p : Path) : List DirEntry :=
  fs.filterMap fun e =>
    match e.1.getLast? with
    | some c => if e.1.dropLast = p then some ⟨c, decide (e.2 = Node.dir)⟩ else none
    | none => none

/-- Go `os.ReadDir`: the entries of the directory, sorted by file name. -/
def readDir (deny : Denied) (fs : FS) (p : Path) : Except Errno (List DirEntry) :=
  match deny .readDir p with
  | some d => .error d.errno
  | none =>
    match stat fs p with
    | .ok (q, .dir) =>
      .ok ((children fs q).insertionSort fun a b => leChars a.name.data b.name.data = true)
    | .ok _ => .error .ENOTDIR
    | .error e => .error e

/-! ## Local registry -/

/-- Source `isVersionInstalled` (main.go 280-298). -/
def isVersionInstalled (deny : Denied) (usr : Option Path) (fs : FS) (version : String) :
    Bool × Option Err :=
  match usr with
  | none => (false, some Err.currentUser)
  | some home =>
    let versionDir := joinPath home ["sdk", normalizeVersionName version]
    match osStat deny fs versionDir with
    | .error .ENOENT => (false, none)
    | .error e => (false, some (Err.checkInstalled e))
    | .ok _ => (true, none)

/-- The loop of `listLocalVersions` (main.go 153-157): the printed lines. -/
def printDirs : List DirEntry → List String
  | [] => []
  | d :: ds => if d.isDir then d.name :: printDirs ds else printDirs ds

/-- Source `listLocalVersions` (main.go 136-160): the printed lines and the
error. -/
def listLocalVersions (deny : Denied) (usr : Option Path) (fs : FS) :
    List String × Option Err :=
  match usr with
  | none => ([], some Err.currentUser)
  | some home =>
    let versionsDir := joinPath home ["sdk"]
    match osStat deny fs versionsDir with
    | .error .ENOENT => (["No Go versions installed."], none)
    | _ =>
      match readDir deny fs versionsDir with
      | .error e => ([], some (Err.readVersionsDir e))
      | .ok dirs => (printDirs dirs, none)

/-- The loop of `getInstalledVersions` (main.go 390-396): `versions` grows by
`append`. -/
def appendDirs (versions : List String) : List DirEntry → List String
  | [] => versions
  | d :: ds => if d.isDir then appendDirs (versions ++ [d.name]) ds else appendDirs versions ds

/-- Source `getInstalledVersions` (main.go 377-399). -/
def getInstalledVersions (deny : Denied) (usr : Option Path) (fs : FS) :
    List String × Option Err :=
  match usr with
  | none => ([], some Err.currentUser)
  | some home =>
    let versionsDir := joinPath home ["sdk"]
    match readDir deny fs versionsDir with
    | .error e => ([], some (Err.readVersionsDir e))
    | .ok dirs => (appendDirs [] dirs, none)

/-! ## Switch and removal -/

/-- The outcome of a command: the file system it leaves, the lines it
printed, the error it returned. -/
structure Outcome where
  fs : FS
  out : List String
  err : Option Err
  deriving DecidableEq, Repr

/-- Source `useVersion` (main.go 199-236). -/
def useVersion (deny : Denied) (usr : Option Path) (fs : FS) (version : String) : Outcome :=
  match isVersionInstalled deny usr fs version with
  | (_, some err) => ⟨fs, [], some err⟩
  | (false, none) => ⟨fs, [], some (Err.versionNotFound version)⟩
  | (true, none) =>
    match usr with
    | none => ⟨fs, [], some Err.currentUser⟩
    | some home =>
      let binDir := joinPath home [".gvs", "bin"]
      match mkdirAll deny fs binDir with
      | (fs1, some e) => ⟨fs1, [], some (Err.createBinDir e)⟩
      | (fs1, none) =>
        let symlinkPath := joinPath binDir ["go"]
        let removed : FS × Option Errno :=
          match osLstat deny fs1 symlinkPath with
          | .ok _ => remove deny fs1 symlinkPath
          | .error _ => (fs1, none)
        match removed with
        | (fs2, some e) => ⟨fs2, [], some (Err.removeExistingSymlink e)⟩
        | (fs2, none) =>
          let versionGoBin :=
            render (joinPath home ["sdk", normalizeVersionName version, "bin", "go"])
          match symlink deny fs2 versionGoBin symlinkPath with
          | (fs3, some e) => ⟨fs3, [], some (Err.createSymlink e)⟩
          | (fs3, none) =>
            ⟨fs3,
              ["Now using Go " ++ version,
               "Please add the following to your shell's config file:",
               "export PATH=" ++ render binDir ++ ":$PATH"],
              none⟩

/-- Source `removeVersion` (main.go 238-278). -/
def removeVersion (deny : Denied) (usr : Option Path) (fs : FS) (version : String) : Outcome :=
  match isVersionInstalled deny usr fs version with
  | (_, some err) => ⟨fs, [], some err⟩
  | (false, none) => ⟨fs, [], some (Err.versionNotFound version)⟩
  | (true, none) =>
    match usr with
    | none => ⟨fs, [], some Err.currentUser⟩
    | some home =>
      let versionDir := joinPath home ["sdk", normalizeVersionName version]
      match removeAll deny fs versionDir with
      | (fs1, some e) => ⟨fs1, [], some (Err.removeGoVersion e)⟩
      | (fs1, none) =>
        let binDir := joinPath home [".gvs", "bin"]
        let symlinkPath := joinPath binDir ["go"]
        let done : Outcome := ⟨fs1, ["Go version " ++ version ++ " removed successfully."], none⟩
        match osLstat deny fs1 symlinkPath with
        | .error _ => done
        | .ok _ =>
          match readlink deny fs1 symlinkPath with
          | .error e => ⟨fs1, [], some (Err.readSymlink e)⟩
          | .ok link =>
            if link = render (joinPath versionDir ["bin", "go"]) then
              match remove deny fs1 symlinkPath with
              | (fs2, some e) => ⟨fs2, [], some (Err.removeSymlink e)⟩
              | (fs2, none) =>
                ⟨fs2, ["Go version " ++ version ++ " removed successfully."], none⟩
            else done

/-! ## Example states -/

/-- A system that refuses nothing. -/
def allowAll : Denied := fun _ _ => none

/-- The home directory of the examples, `/home/u`. -/
def exHome : Path := ["home", "u"]

/-- Releases `go1.20` and `go1.21` installed, each with its `bin/go`. -/
def exTwoReleases : FS :=
  [(["home"], .dir), (["home", "u"], .dir), (["home", "u", "sdk"], .dir),
   (["home", "u", "sdk", "go1.20"], .dir), (["home", "u", "sdk", "go1.20", "bin"], .dir),
   (["home", "u", "sdk", "go1.20", "bin", "go"], .file),
   (["home", "u", "sdk", "go1.21"], .dir), (["home", "u", "sdk", "go1.21", "bin"], .dir),
   (["home", "u", "sdk", "go1.21", "bin", "go"], .file)]

/-- A regular file where the versions root should be: `/home/u/sdk` is a file. -/
def exSdkIsFile : FS :=
  [(["home"], .dir), (["home", "u"], .dir), (["home", "u", "sdk"], .file)]

/-- A regular file named like a release: `/home/u/sdk/go1.21` is a file. -/
def exReleaseIsFile : FS :=
  [(["home"], .dir), (["home", "u"], .dir), (["home", "u", "sdk"], .dir),
   (["home", "u", "sdk", "go1.21"], .file)]

/-- Release `go1.21` installed and a regular file at `/home/u/.gvs`. -/
def exGvsIsFile : FS :=
  [(["home"], .dir), (["home", "u"], .dir), (["home", "u", "sdk"], .dir),
   (["home", "u", "sdk", "go1.21"], .dir), (["home", "u", ".gvs"], .file)]

/-- Only the home directory: nothing installed, no `sdk`, no `.gvs`. -/
def exEmptyHome : FS := [(["home"], .dir), (["home", "u"], .dir)]

/-- The two releases and a regular file `notes.txt` next to them in `sdk`. -/
def exReleasesAndFile : FS :=
  exTwoReleases ++ [(["home", "u", "sdk", "notes.txt"], .file)]

/-- Release `go1.22.1` installed, nothing else. -/
def exRelease1221 : FS :=
  [(["home"], .dir), (["home", "u"], .dir), (["home", "u", "sdk"], .dir),
   (["home", "u", "sdk", "go1.22.1"], .dir), (["home", "u", "sdk", "go1.22.1", "bin"], .dir),
   (["home", "u", "sdk", "go1.22.1", "bin", "go"], .file)]

/-- The two releases, and a regular file (not a link) at `/home/u/.gvs/bin/go`. -/
def exLinkPathIsFile : FS :=
  exTwoReleases ++
    [(["home", "u", ".gvs"], .dir), (["home", "u", ".gvs", "bin"], .dir),
     (["home", "u", ".gvs", "bin", "go"], .file)]


/-- The two releases, `/home/u/.gvs` a link to the directory `/data/gvs`, and
in `/data/gvs/bin` the active link, to release `go1.21`. -/
def exGvsIsLink : FS :=
  exTwoReleases ++
    [(["data"], .dir), (["data", "gvs"], .dir), (["data", "gvs", "bin"], .dir),
     (["data", "gvs", "bin", "go"], .symlink "/home/u/sdk/go1.21/bin/go"),
     (["home", "u", ".gvs"], .symlink "/data/gvs")]

/-- The two releases, `/home/u/.gvs` a link to a directory inside release
`go1.21`, and there the active link, to release `go1.20`. -/
def exGvsInsideRelease : FS :=
  exTwoReleases ++
    [(["home", "u", "sdk", "go1.21", "gvs"], .dir),
     (["home", "u", "sdk", "go1.21", "gvs", "bin"], .dir),
     (["home", "u", "sdk", "go1.21", "gvs", "bin", "go"], .symlink "/home/u/sdk/go1.20/bin/go"),
     (["home", "u", ".gvs"], .symlink "sdk/go1.21/gvs")]

/-- The two releases, and a directory with a file in it at
`/home/u/.gvs/bin/go`. -/
def exLinkPathIsDir : FS :=
  exTwoReleases ++
    [(["home", "u", ".gvs"], .dir), (["home", "u", ".gvs", "bin"], .dir),
     (["home", "u", ".gvs", "bin", "go"], .dir),
     (["home", "u", ".gvs", "bin", "go", "README"], .file)]

/-- The two releases, and the active link, to release `go1.20`, in a real
directory `/home/u/.gvs/bin`. -/
def exActive120 : FS :=
  exTwoReleases ++
    [(["home", "u", ".gvs"], .dir), (["home", "u", ".gvs", "bin"], .dir),
     (["home", "u", ".gvs", "bin", "go"], .symlink "/home/u/sdk/go1.20/bin/go")]

/-- A system that refuses, with `EACCES`, to remove the file
`/home/u/sdk/go1.21/bin/go`. -/
def denyRemoveBinary : Denied := fun op p =>
  if op = Op.remove ∧ p = ["home", "u", "sdk", "go1.21", "bin", "go"] then some Denial.EACCES
  else none

/-- A system in which the directory `/home/u/.gvs/bin` cannot be written:
creating or removing an entry of it is refused with `EACCES`. -/
def denyBinWrites : Denied := fun op p =>
  if (op = Op.mkdir ∨ op = Op.remove ∨ op = Op.symlink) ∧
      p.dropLast = ["home", "u", ".gvs", "bin"] then some Denial.EACCES
  else none
/-! ## Theorems: strings and normalization -/

theorem hasPrefix_go_iff (s : String) :
    hasPrefix s "go" = true ↔ ∃ r, s.data = 'g' :: 'o' :: r := by
  unfold hasPrefix
  have hgo : "go".data = ['g', 'o'] := rfl
  rw [hgo]
  constructor
  · intro h
    match hs : s.data, h with
    | a :: b :: r, h =>
      simp [List.isPrefixOf] at h
      exact ⟨r, by rw [h.1, h.2]⟩
    | [a], h => simp [List.isPrefixOf] at h
    | [], h => simp [List.isPrefixOf] at h
  · rintro ⟨r, hr⟩
    rw [hr]
    simp [List.isPrefixOf]

theorem go_append_data (s : String) : ("go" ++ s).data = 'g' :: 'o' :: s.data := rfl

theorem hasPrefix_go_append (s : String) : hasPrefix ("go" ++ s) "go" = true :=
  (hasPrefix_go_iff _).2 ⟨s.data, go_append_data s⟩

theorem hasPrefix_normalize (s : String) : hasPrefix (normalizeVersionName s) "go" = true := by
  unfold normalizeVersionName
  cases h : hasPrefix s "go"
  · simpa using hasPrefix_go_append s
  · simpa using h

theorem go_trimPrefix (v : String) : "go" ++ trimPrefix v "go" = normalizeVersionName v := by
  unfold trimPrefix normalizeVersionName
  cases h : hasPrefix v "go"
  · simp
  · obtain ⟨r, hr⟩ := (hasPrefix_go_iff v).1 h
    have hlen : "go".data.length = 2 := rfl
    simp only [if_true, Bool.not_true, Bool.false_eq_true, if_false, hlen]
    apply String.ext
    rw [go_append_data, hr]
    rfl

/-- C6: a string without the leading `go` is normalized to `go` followed by
the string (two characters longer, the prefix added once); a string with the
leading `go` is returned as it is; `1.21.0` and `go1.21.0` both give
`go1.21.0`, `abc` gives `goabc`; every result starts with `go`. -/
theorem normalizeVersionName_spec :
    (∀ s : String, hasPrefix s "go" = false →
      normalizeVersionName s = "go" ++ s ∧
      (normalizeVersionName s).length = s.length + "go".length ∧
      trimPrefix (normalizeVersionName s) "go" = s) ∧
    (∀ s : String, hasPrefix s "go" = true → normalizeVersionName s = s) ∧
    normalizeVersionName "1.21.0" = "go1.21.0" ∧
    normalizeVersionName "go1.21.0" = "go1.21.0" ∧
    normalizeVersionName "abc" = "goabc" ∧
    (∀ s : String, hasPrefix (normalizeVersionName s) "go" = true) := by
  refine ⟨?_, ?_, by decide, by decide, by decide, hasPrefix_normalize⟩
  · intro s h
    have hn : normalizeVersionName s = "go" ++ s := by
      unfold normalizeVersionName
      simp [h]
    refine ⟨hn, ?_, ?_⟩
    · rw [hn, String.length_append, Nat.add_comm]
    · rw [hn]
      unfold trimPrefix
      rw [hasPrefix_go_append]
      rfl
  · intro s h
    unfold normalizeVersionName
    simp [h]

/-- Witness of C6 at `1.21.0` (no prefix) and `go1.21.0` (prefix). -/
theorem normalizeVersionName_spec_witness :
    hasPrefix "1.21.0" "go" = false ∧
    normalizeVersionName "1.21.0" = "go" ++ "1.21.0" ∧
    hasPrefix "go1.21.0" "go" = true ∧
    normalizeVersionName "go1.21.0" = "go1.21.0" :=
  ⟨by decide, (normalizeVersionName_spec.1 "1.21.0" (by decide)).1, by decide,
    normalizeVersionName_spec.2.1 "go1.21.0" (by decide)⟩

theorem normalize_of_hasPrefix (y : String) (h : hasPrefix y "go" = true) :
    normalizeVersionName y = y := by
  unfold normalizeVersionName
  simp [h]

/-- C7: `normalizeVersionName` is a total function and normalizing twice
is normalizing once, for every string (the empty string and `go` included). -/
theorem normalizeVersionName_idempotent (x : String) :
    normalizeVersionName (normalizeVersionName x) = normalizeVersionName x ∧
    normalizeVersionName (normalizeVersionName "") = normalizeVersionName "" ∧
    normalizeVersionName (normalizeVersionName "go") = normalizeVersionName "go" :=
  ⟨normalize_of_hasPrefix _ (hasPrefix_normalize x), by decide, by decide⟩

/-! ## Theorems: remote catalog -/

theorem filter_ne_filter_not_mem (l seen : List String) (m : String) (hm : m ∈ seen) :
    (l.filter (fun y => y ≠ m)).filter (fun y => !seen.contains y) =
      l.filter (fun y => !seen.contains y) := by
  rw [List.filter_filter]
  apply List.filter_congr
  intro y _
  by_cases hy : y = m
  · subst hy
    simp [hm]
  · simp [hy]

theorem filter_ne_filter_cons (l seen : List String) (m : String) :
    (l.filter (fun y => y ≠ m)).filter (fun y => !seen.contains y) =
      l.filter (fun y => !(m :: seen).contains y) := by
  rw [List.filter_filter]
  apply List.filter_congr
  intro y _
  by_cases hy : y = m
  · subst hy
    simp
  · simp [hy]

theorem listRemoteLoop_unbounded (limit : Int) (hl : limit ≤ 0) (ms seen : List String)
    (count : Int) :
    listRemoteLoop limit ms seen count =
      (firstOccurrences ms).filter (fun y => !seen.contains y) := by
  induction ms generalizing seen count with
  | nil => rfl
  | cons m rest ih =>
    have hnot : ¬ (limit > 0 ∧ count + 1 ≥ limit) := by omega
    by_cases hm : m ∈ seen
    · have hc1 : (!seen.contains m) = false := by simp [hm]
      rw [listRemoteLoop, firstOccurrences, List.filter_cons, hc1, ih,
        filter_ne_filter_not_mem _ _ _ hm]
      simp
    · have hc1 : (!seen.contains m) = true := by simp [hm]
      rw [listRemoteLoop, firstOccurrences, List.filter_cons, hc1, filter_ne_filter_cons]
      simp only [if_true]
      rw [if_neg hnot, ih (m :: seen) (count + 1)]

theorem listRemoteLoop_bounded (limit : Int) (ms seen : List String) (count : Int)
    (hc : count < limit) (hc0 : 0 ≤ count) :
    listRemoteLoop limit ms seen count =
      ((firstOccurrences ms).filter (fun y => !seen.contains y)).take (limit - count).toNat := by
  induction ms generalizing seen count with
  | nil => simp [listRemoteLoop, firstOccurrences]
  | cons m rest ih =>
    have hpos : limit > 0 := by omega
    by_cases hm : m ∈ seen
    · have hc1 : (!seen.contains m) = false := by simp [hm]
      rw [listRemoteLoop, firstOccurrences, List.filter_cons, hc1, ih seen count hc hc0,
        filter_ne_filter_not_mem _ _ _ hm]
      simp
    · have hc1 : (!seen.contains m) = true := by simp [hm]
      obtain ⟨k, hk⟩ : ∃ k, (limit - count).toNat = k + 1 :=
        ⟨(limit - count).toNat - 1, by omega⟩
      rw [listRemoteLoop, firstOccurrences, List.filter_cons, hc1, filter_ne_filter_cons, hk]
      simp only [if_true, List.take_succ_cons]
      by_cases hge : limit > 0 ∧ count + 1 ≥ limit
      · have hk0 : k = 0 := by omega
        simp [hge, hk0]
      · have hk2 : (limit - (count + 1)).toNat = k := by omega
        rw [if_neg hge, ih (m :: seen) (count + 1) (by omega) (by omega), hk2]

theorem firstOccurrences_subset (l : List String) : ∀ y ∈ firstOccurrences l, y ∈ l := by
  induction l with
  | nil => simp [firstOccurrences]
  | cons x xs ih =>
    intro y hy
    simp only [firstOccurrences, List.mem_cons, List.mem_filter] at hy
    rcases hy with h | h
    · simp [h]
    · exact List.mem_cons_of_mem _ (ih y h.1)

theorem firstOccurrences_nodup (l : List String) : (firstOccurrences l).Nodup := by
  induction l with
  | nil => simp [firstOccurrences]
  | cons x xs ih =>
    simp only [firstOccurrences, List.nodup_cons, List.mem_filter]
    exact ⟨by simp, ih.filter _⟩

theorem mem_firstOccurrences (l : List String) : ∀ y ∈ l, y ∈ firstOccurrences l := by
  induction l with
  | nil => simp
  | cons x xs ih =>
    intro y hy
    simp only [firstOccurrences, List.mem_cons, List.mem_filter]
    by_cases hyx : y = x
    · exact Or.inl hyx
    · rcases List.mem_cons.1 hy with h | h
      · exact absurd h hyx
      · exact Or.inr ⟨ih y h, by simpa using hyx⟩

/-- C5: for every sequence of captured versions and every limit,
`listRemoteVersions` returns no error (also for no match at all) and prints a
sequence without duplicates: the first occurrences of the captured versions
in document order, cut to the first `limit` of them when `limit > 0` and
whole when `limit <= 0`. The sample `1.20, 1.20, 1.21.0` with limit 1 prints
exactly `1.20`. -/
theorem listRemoteVersions_spec (ms : List String) (limit : Int) :
    (listRemoteVersions (some ms) limit).2 = none ∧
    (listRemoteVersions (some ms) limit).1.Nodup ∧
    (listRemoteVersions (some ms) limit).1 =
      (if limit > 0 then (firstOccurrences ms).take limit.toNat else firstOccurrences ms) ∧
    (∀ y, y ∈ firstOccurrences ms ↔ y ∈ ms) ∧
    listRemoteVersions (some []) limit = ([], none) ∧
    (listRemoteVersions (some ["1.20", "1.20", "1.21.0"]) 1).1 = ["1.20"] := by
  have hout : (listRemoteVersions (some ms) limit).1 =
      (if limit > 0 then (firstOccurrences ms).take limit.toNat else firstOccurrences ms) := by
    show listRemoteLoop limit ms [] 0 = _
    by_cases hl : limit > 0
    · rw [if_pos hl, listRemoteLoop_bounded limit ms [] 0 hl (le_refl 0)]
      simp
    · rw [if_neg hl, listRemoteLoop_unbounded limit (by omega)]
      simp
  refine ⟨rfl, ?_, hout, fun y => ⟨firstOccurrences_subset ms y, mem_firstOccurrences ms y⟩,
    rfl, by decide⟩
  rw [hout]
  split
  · exact (List.take_sublist _ _).nodup (firstOccurrences_nodup ms)
  · exact firstOccurrences_nodup ms

/-! ## Theorems: paths -/

theorem splitSlash_of_not_mem (l : List Char) (h : '/' ∉ l) : splitSlash l = [l] := by
  induction l with
  | nil => rfl
  | cons c cs ih =>
    have hc : c ≠ '/' := fun hc => h (by simp [hc])
    have hcs : '/' ∉ cs := fun hcs => h (List.mem_cons_of_mem _ hcs)
    simp [splitSlash, hc, ih hcs]

theorem validName_iff (c : String) :
    validName c = true ↔ c ≠ "" ∧ c ≠ "." ∧ c ≠ ".." ∧ '/' ∉ c.data := by
  simp [validName, not_or]

theorem cleanStep_valid (stack : Path) (c : String) (h : validName c = true) :
    cleanStep stack c = stack ++ [c] := by
  obtain ⟨h1, h2, h3, _⟩ := (validName_iff c).1 h
  simp [cleanStep, h1, h2, h3]

theorem joinPath_valid (base : Path) (elems : List String)
    (h : ∀ e ∈ elems, validName e = true) : joinPath base elems = base ++ elems := by
  induction elems generalizing base with
  | nil => simp [joinPath]
  | cons e es ih =>
    have he : validName e = true := h e (by simp)
    have hs : splitComps e = [e] := by
      unfold splitComps
      rw [splitSlash_of_not_mem _ ((validName_iff e).1 he).2.2.2]
      rfl
    have hstep := ih (base ++ [e]) (fun x hx => h x (List.mem_cons_of_mem _ hx))
    unfold joinPath at hstep ⊢
    rw [List.flatMap_cons, hs, List.foldl_append]
    simp only [List.foldl_cons, List.foldl_nil, cleanStep_valid base e he]
    rw [hstep]
    simp

/-! ## Theorems: the file system table -/

theorem lookupNode_append (a b : FS) (q : Path) :
    lookupNode (a ++ b) q =
      match lookupNode a q with
      | some n => some n
      | none => lookupNode b q := by
  induction a with
  | nil => simp [lookupNode]
  | cons e a ih =>
    obtain ⟨k, n⟩ := e
    by_cases hk : k = q
    · simp [lookupNode, hk]
    · simp [lookupNode, hk, ih]

theorem lookupNode_filter (f : Path → Bool) (fs : FS) (q : Path) :
    lookupNode (fs.filter fun e => f e.1) q = if f q then lookupNode fs q else none := by
  induction fs with
  | nil => simp [lookupNode]
  | cons e fs ih =>
    obtain ⟨k, n⟩ := e
    by_cases hf : f k = true
    · by_cases hk : k = q
      · subst hk
        simp [lookupNode, List.filter_cons, hf]
      · simp [lookupNode, List.filter_cons, hf, hk, ih]
    · by_cases hk : k = q
      · subst hk
        simp only [List.filter_cons, hf, lookupNode]
        simp [ih, hf]
      · simp only [List.filter_cons, hf, lookupNode]
        simp [ih, hk]

theorem filter_of_lookupNode_none (fs : FS) (p : Path) (h : lookupNode fs p = none) :
    (fs.filter fun e => decide (e.1 ≠ p)) = fs := by
  induction fs with
  | nil => rfl
  | cons e fs ih =>
    obtain ⟨k, n⟩ := e
    by_cases hk : k = p
    · simp [lookupNode, hk] at h
    · simp only [lookupNode, hk, if_false] at h
      have hd : decide ((k, n).1 ≠ p) = true := by simpa using hk
      rw [List.filter_cons, if_pos hd, ih h]

theorem node_of_ne_nil (fs : FS) (p : Path) (h : p ≠ []) : node fs p = lookupNode fs p := by
  simp [node, h]

theorem node_append_of_some (fs ex : FS) (q : Path) (n : Node) (h : node fs q = some n) :
    node (fs ++ ex) q = some n := by
  unfold node at h ⊢
  split
  · simpa [*] using h
  · rename_i hq
    simp only [hq, if_false] at h
    rw [lookupNode_append, h]

theorem node_append_of_ne (fs : FS) (p q : Path) (n : Node) (h : q ≠ p) :
    node (fs ++ [(p, n)]) q = node fs q := by
  unfold node
  split
  · rfl
  · rw [lookupNode_append]
    cases lookupNode fs q <;> simp [lookupNode, Ne.symm h]

theorem node_filter (f : Path → Bool) (fs : FS) (q : Path) (h : f q = true) :
    node (fs.filter fun e => f e.1) q = node fs q := by
  unfold node
  rw [lookupNode_filter, h]
  simp

/-! ## Theorems: path resolution -/

theorem walkStep_nil (next : Path → List String → Except Errno (Path × Node)) (fs : FS)
    (fl : Bool) (cur : Path) :
    walkStep next fs fl cur [] =
      match node fs cur with
      | some n => .ok (cur, n)
      | none => .error .ENOENT := by
  rw [walkStep]

theorem walkStep_of_none (next : Path → List String → Except Errno (Path × Node)) (fs : FS)
    (fl : Bool) (cur : Path) (cs : List String) (h : node fs cur = none) :
    walkStep next fs fl cur cs = .error .ENOENT := by
  cases cs with
  | nil => rw [walkStep, h]
  | cons c cs => rw [walkStep, h]

theorem walkStep_congr (fs fs2 : FS) (fl : Bool)
    (next next2 : Path → List String → Except Errno (Path × Node))
    (nextR : Path → List String → List Path)
    (hnext : ∀ cur cs, (∀ q ∈ nextR cur cs, node fs2 q = node fs q) →
      next2 cur cs = next cur cs)
    (cs : List String) :
    ∀ cur, (∀ q ∈ readsStep nextR fs fl cur cs, node fs2 q = node fs q) →
      walkStep next2 fs2 fl cur cs = walkStep next fs fl cur cs := by
  induction cs with
  | nil =>
    intro cur h
    rw [walkStep, walkStep, h cur (by simp [readsStep])]
  | cons c cs ih =>
    intro cur h
    have hcur : node fs2 cur = node fs cur := h cur (by rw [readsStep]; simp)
    rw [walkStep, walkStep, hcur]
    rw [readsStep] at h
    cases hn : node fs cur with
    | none => rfl
    | some n =>
      cases n with
      | file => rfl
      | symlink t => rfl
      | dir =>
        simp only [hn] at h ⊢
        by_cases hc1 : c = "" ∨ c = "."
        · simp only [hc1, if_true] at h ⊢
          exact ih cur (fun q hq => h q (List.mem_cons_of_mem _ hq))
        · simp only [hc1, if_false] at h ⊢
          by_cases hc2 : c = ".."
          · simp only [hc2, if_true] at h ⊢
            exact ih _ (fun q hq => h q (List.mem_cons_of_mem _ hq))
          · simp only [hc2, if_false] at h ⊢
            have hnext1 : node fs2 (cur ++ [c]) = node fs (cur ++ [c]) :=
              h _ (by simp)
            rw [hnext1]
            cases hm : node fs (cur ++ [c]) with
            | none =>
              simp only [hm] at h ⊢
              exact ih _ (fun q hq => h q (by simp [hq]))
            | some m =>
              cases m with
              | dir =>
                simp only [hm] at h ⊢
                exact ih _ (fun q hq => h q (by simp [hq]))
              | file =>
                simp only [hm] at h ⊢
                exact ih _ (fun q hq => h q (by simp [hq]))
              | symlink t =>
                simp only [hm] at h ⊢
                by_cases hlast : cs = [] ∧ fl = false
                · simp only [hlast, and_self, if_true]
                · simp only [hlast, if_false] at h ⊢
                  by_cases ht : t = ""
                  · simp only [ht, if_true]
                  · simp only [ht, if_false] at h ⊢
                    exact hnext _ _ (fun q hq => h q (by simp [hq]))

theorem walk_congr (fs fs2 : FS) (fl : Bool) (n : Nat) :
    ∀ cur cs, (∀ q ∈ reads fs fl n cur cs, node fs2 q = node fs q) →
      walk fs2 fl n cur cs = walk fs fl n cur cs := by
  induction n with
  | zero =>
    intro cur cs h
    exact walkStep_congr fs fs2 fl _ _ (fun _ _ => []) (fun _ _ _ => rfl) cs cur h
  | succ n ih =>
    intro cur cs h
    exact walkStep_congr fs fs2 fl _ _ (reads fs fl n) ih cs cur h

theorem node_filter_keep (keep : Path → Bool) (fs : FS) (q : Path)
    (h : q = [] ∨ keep q = true) :
    node (fs.filter fun e => keep e.1) q = node fs q := by
  unfold node
  by_cases hq : q = []
  · simp [hq]
  · rcases h with h | h
    · exact absurd h hq
    · simp only [hq, if_false]
      rw [lookupNode_filter, h]
      simp

theorem node_filter_drop (keep : Path → Bool) (fs : FS) (q : Path)
    (h : ¬ (q = [] ∨ keep q = true)) :
    node (fs.filter fun e => keep e.1) q = none := by
  rw [not_or] at h
  unfold node
  simp only [h.1, if_false]
  rw [lookupNode_filter]
  simp [h.2]

theorem walkStep_filter_gone (fs : FS) (keep : Path → Bool) (fl : Bool)
    (next2 : Path → List String → Except Errno (Path × Node))
    (nextR : Path → List String → List Path)
    (hnext : ∀ cur cs, ¬ (∀ q ∈ nextR cur cs, q = [] ∨ keep q = true) →
      next2 cur cs = .error .ENOENT)
    (cs : List String) :
    ∀ cur, ¬ (∀ q ∈ readsStep nextR fs fl cur cs, q = [] ∨ keep q = true) →
      walkStep next2 (fs.filter fun e => keep e.1) fl cur cs = .error .ENOENT := by
  induction cs with
  | nil =>
    intro cur h
    have hcur : ¬ (cur = [] ∨ keep cur = true) := fun hk => h (by simpa [readsStep] using hk)
    exact walkStep_of_none _ _ _ _ _ (node_filter_drop keep fs cur hcur)
  | cons c cs ih =>
    intro cur h
    by_cases hcur : cur = [] ∨ keep cur = true
    · rw [walkStep, node_filter_keep keep fs cur hcur]
      rw [readsStep] at h
      cases hn : node fs cur with
      | none => rfl
      | some n =>
        cases n with
        | file =>
          exfalso
          apply h
          intro q hq
          simp only [hn, List.mem_cons, List.not_mem_nil, or_false] at hq
          rw [hq]
          exact hcur
        | symlink t =>
          exfalso
          apply h
          intro q hq
          simp only [hn, List.mem_cons, List.not_mem_nil, or_false] at hq
          rw [hq]
          exact hcur
        | dir =>
          simp only [hn] at h ⊢
          by_cases hc1 : c = "" ∨ c = "."
          · simp only [hc1, if_true] at h ⊢
            apply ih cur
            intro hall
            apply h
            intro q hq
            rcases List.mem_cons.1 hq with hq | hq
            · rw [hq]; exact hcur
            · exact hall q hq
          · simp only [hc1, if_false] at h ⊢
            by_cases hc2 : c = ".."
            · simp only [hc2, if_true] at h ⊢
              apply ih
              intro hall
              apply h
              intro q hq
              rcases List.mem_cons.1 hq with hq | hq
              · rw [hq]; exact hcur
              · exact hall q hq
            · simp only [hc2, if_false] at h ⊢
              by_cases hnx : cur ++ [c] = [] ∨ keep (cur ++ [c]) = true
              · rw [node_filter_keep keep fs _ hnx]
                have hrest : ∀ (l : List Path), ¬ (∀ q ∈ cur :: (cur ++ [c]) :: l,
                    q = [] ∨ keep q = true) → ¬ (∀ q ∈ l, q = [] ∨ keep q = true) := by
                  intro l hl hall
                  apply hl
                  intro q hq
                  rcases List.mem_cons.1 hq with hq | hq
                  · rw [hq]; exact hcur
                  · rcases List.mem_cons.1 hq with hq | hq
                    · rw [hq]; exact hnx
                    · exact hall q hq
                cases hm : node fs (cur ++ [c]) with
                | none =>
                  simp only [hm] at h ⊢
                  exact ih _ (hrest _ h)
                | some m =>
                  cases m with
                  | dir =>
                    simp only [hm] at h ⊢
                    exact ih _ (hrest _ h)
                  | file =>
                    simp only [hm] at h ⊢
                    exact ih _ (hrest _ h)
                  | symlink t =>
                    simp only [hm] at h ⊢
                    by_cases hlast : cs = [] ∧ fl = false
                    · simp only [hlast, and_self, if_true] at h
                      exact absurd (by simp) (hrest _ h)
                    · simp only [hlast, if_false] at h ⊢
                      by_cases ht : t = ""
                      · simp only [ht, if_true]
                      · simp only [ht, if_false] at h ⊢
                        exact hnext _ _ (hrest _ h)
              · rw [node_filter_drop keep fs _ hnx]
                simp only
                exact walkStep_of_none _ _ _ _ _ (node_filter_drop keep fs _ hnx)
    · rw [walkStep, node_filter_drop keep fs cur hcur]

theorem walk_filter_gone (fs : FS) (keep : Path → Bool) (fl : Bool) (n : Nat) :
    ∀ cur cs, ¬ (∀ q ∈ reads fs fl n cur cs, q = [] ∨ keep q = true) →
      walk (fs.filter fun e => keep e.1) fl n cur cs = .error .ENOENT := by
  induction n with
  | zero =>
    intro cur cs h
    exact walkStep_filter_gone fs keep fl _ (fun _ _ => [])
      (fun _ _ hh => absurd (by simp) hh) cs cur h
  | succ n ih =>
    intro cur cs h
    exact walkStep_filter_gone fs keep fl _ (reads fs fl n) ih cs cur h

theorem walk_filter_same (fs : FS) (keep : Path → Bool) (fl : Bool) (n : Nat) (cur : Path)
    (cs : List String) (h : ∀ q ∈ reads fs fl n cur cs, q = [] ∨ keep q = true) :
    walk (fs.filter fun e => keep e.1) fl n cur cs = walk fs fl n cur cs :=
  walk_congr fs _ fl n cur cs (fun q hq => node_filter_keep keep fs q (h q hq))

/-- After rows are deleted a path resolves as before or not at all. -/
theorem walk_filter (fs : FS) (keep : Path → Bool) (fl : Bool) (n : Nat) (cur : Path)
    (cs : List String) :
    walk (fs.filter fun e => keep e.1) fl n cur cs = walk fs fl n cur cs ∨
    walk (fs.filter fun e => keep e.1) fl n cur cs = .error .ENOENT := by
  by_cases h : ∀ q ∈ reads fs fl n cur cs, q = [] ∨ keep q = true
  · exact Or.inl (walk_filter_same fs keep fl n cur cs h)
  · exact Or.inr (walk_filter_gone fs keep fl n cur cs h)

theorem cur_mem_readsStep (nextR : Path → List String → List Path) (fs : FS) (fl : Bool)
    (cur : Path) (cs : List String) : cur ∈ readsStep nextR fs fl cur cs := by
  cases cs with
  | nil => simp [readsStep]
  | cons c cs => rw [readsStep]; simp

theorem walkStep_ok (fs : FS) (fl : Bool)
    (next : Path → List String → Except Errno (Path × Node))
    (nextR : Path → List String → List Path)
    (hnext : ∀ cur cs r, next cur cs = .ok r →
      r.1 ∈ nextR cur cs ∧ (∀ q ∈ nextR cur cs, node fs q ≠ none) ∧ node fs r.1 = some r.2)
    (cs : List String) :
    ∀ cur r, walkStep next fs fl cur cs = .ok r →
      r.1 ∈ readsStep nextR fs fl cur cs ∧
      (∀ q ∈ readsStep nextR fs fl cur cs, node fs q ≠ none) ∧ node fs r.1 = some r.2 := by
  induction cs with
  | nil =>
    intro cur r h
    rw [walkStep] at h
    cases hn : node fs cur with
    | none => rw [hn] at h; cases h
    | some n =>
      rw [hn] at h
      simp only [Except.ok.injEq] at h
      subst h
      simp [readsStep, hn]
  | cons c cs ih =>
    intro cur r h
    rw [walkStep] at h
    rw [readsStep]
    cases hn : node fs cur with
    | none => rw [hn] at h; cases h
    | some n =>
      cases n with
      | file => rw [hn] at h; cases h
      | symlink t => rw [hn] at h; cases h
      | dir =>
        have hcur : node fs cur ≠ none := by rw [hn]; simp
        simp only [hn] at h ⊢
        by_cases hc1 : c = "" ∨ c = "."
        · simp only [hc1, if_true] at h ⊢
          obtain ⟨h1, h2, h3⟩ := ih cur r h
          refine ⟨List.mem_cons_of_mem _ h1, ?_, h3⟩
          intro q hq
          rcases List.mem_cons.1 hq with hq | hq
          · rw [hq]; exact hcur
          · exact h2 q hq
        · simp only [hc1, if_false] at h ⊢
          by_cases hc2 : c = ".."
          · simp only [hc2, if_true] at h ⊢
            obtain ⟨h1, h2, h3⟩ := ih _ r h
            refine ⟨List.mem_cons_of_mem _ h1, ?_, h3⟩
            intro q hq
            rcases List.mem_cons.1 hq with hq | hq
            · rw [hq]; exact hcur
            · exact h2 q hq
          · simp only [hc2, if_false] at h ⊢
            have hsame : ∀ (l : List Path), (cur ++ [c]) ∈ l →
                r.1 ∈ l ∧ (∀ q ∈ l, node fs q ≠ none) ∧ node fs r.1 = some r.2 →
                r.1 ∈ cur :: (cur ++ [c]) :: l ∧
                (∀ q ∈ cur :: (cur ++ [c]) :: l, node fs q ≠ none) ∧
                node fs r.1 = some r.2 := by
              intro l hmem hl
              refine ⟨List.mem_cons_of_mem _ (List.mem_cons_of_mem _ hl.1), ?_, hl.2.2⟩
              intro q hq
              rcases List.mem_cons.1 hq with hq | hq
              · rw [hq]; exact hcur
              · rcases List.mem_cons.1 hq with hq | hq
                · rw [hq]; exact hl.2.1 _ hmem
                · exact hl.2.1 q hq
            cases hm : node fs (cur ++ [c]) with
            | none =>
              simp only [hm] at h ⊢
              exact hsame _ (cur_mem_readsStep _ _ _ _ _) (ih _ r h)
            | some m =>
              cases m with
              | dir =>
                simp only [hm] at h ⊢
                exact hsame _ (cur_mem_readsStep _ _ _ _ _) (ih _ r h)
              | file =>
                simp only [hm] at h ⊢
                exact hsame _ (cur_mem_readsStep _ _ _ _ _) (ih _ r h)
              | symlink t =>
                have hlink : node fs (cur ++ [c]) ≠ none := by rw [hm]; simp
                simp only [hm] at h ⊢
                by_cases hlast : cs = [] ∧ fl = false
                · simp only [hlast, and_self, if_true, Except.ok.injEq] at h ⊢
                  subst h
                  refine ⟨by simp, ?_, hm⟩
                  intro q hq
                  simp only [List.mem_cons, List.not_mem_nil, or_false] at hq
                  rcases hq with hq | hq
                  · rw [hq]; exact hcur
                  · rw [hq]; exact hlink
                · simp only [hlast, if_false] at h ⊢
                  by_cases ht : t = ""
                  · simp only [ht, if_true] at h
                    cases h
                  · simp only [ht, if_false] at h ⊢
                    obtain ⟨h1, h2, h3⟩ := hnext _ _ r h
                    refine ⟨List.mem_cons_of_mem _ (List.mem_cons_of_mem _ h1), ?_, h3⟩
                    intro q hq
                    rcases List.mem_cons.1 hq with hq | hq
                    · rw [hq]; exact hcur
                    · rcases List.mem_cons.1 hq with hq | hq
                      · rw [hq]; exact hlink
                      · exact h2 q hq

/-- A successful resolution reads its result, reads only entries that
exist, and returns the node of the table. -/
theorem walk_ok (fs : FS) (fl : Bool) (n : Nat) :
    ∀ cur cs r, walk fs fl n cur cs = .ok r →
      r.1 ∈ reads fs fl n cur cs ∧ (∀ q ∈ reads fs fl n cur cs, node fs q ≠ none) ∧
      node fs r.1 = some r.2 := by
  induction n with
  | zero =>
    intro cur cs r h
    exact walkStep_ok fs fl _ (fun _ _ => []) (fun _ _ _ hh => by cases hh) cs cur r h
  | succ n ih =>
    intro cur cs r h
    exact walkStep_ok fs fl _ (reads fs fl n) ih cs cur r h

theorem node_append_same (fs ex : FS) (q : Path) (h : node fs q ≠ none) :
    node (fs ++ ex) q = node fs q := by
  cases hn : node fs q with
  | none => exact absurd hn h
  | some m => exact node_append_of_some fs ex q m hn

/-- New rows do not change a successful resolution. -/
theorem walk_append (fs ex : FS) (fl : Bool) (n : Nat) (cur : Path) (cs : List String)
    (r : Path × Node) (h : walk fs fl n cur cs = .ok r) :
    walk (fs ++ ex) fl n cur cs = .ok r := by
  rw [← h]
  exact walk_congr fs _ fl n cur cs
    (fun q hq => node_append_same fs ex q ((walk_ok fs fl n cur cs r h).2.1 q hq))

theorem walkStep_nofollow (fs : FS)
    (nextT nextF : Path → List String → Except Errno (Path × Node))
    (hnext : ∀ cur cs, (∀ q t, nextF cur cs ≠ .ok (q, Node.symlink t)) →
      nextT cur cs = nextF cur cs)
    (cs : List String) :
    ∀ cur, (∀ q t, walkStep nextF fs false cur cs ≠ .ok (q, Node.symlink t)) →
      walkStep nextT fs true cur cs = walkStep nextF fs false cur cs := by
  induction cs with
  | nil =>
    intro cur _
    rw [walkStep, walkStep]
  | cons c cs ih =>
    intro cur h
    rw [walkStep] at h
    rw [walkStep, walkStep]
    cases hn : node fs cur with
    | none => rfl
    | some n =>
      cases n with
      | file => rfl
      | symlink t => rfl
      | dir =>
        simp only [hn] at h ⊢
        by_cases hc1 : c = "" ∨ c = "."
        · simp only [hc1, if_true] at h ⊢
          exact ih cur h
        · simp only [hc1, if_false] at h ⊢
          by_cases hc2 : c = ".."
          · simp only [hc2, if_true] at h ⊢
            exact ih _ h
          · simp only [hc2, if_false] at h ⊢
            cases hm : node fs (cur ++ [c]) with
            | none =>
              simp only [hm] at h ⊢
              exact ih _ h
            | some m =>
              cases m with
              | dir =>
                simp only [hm] at h ⊢
                exact ih _ h
              | file =>
                simp only [hm] at h ⊢
                exact ih _ h
              | symlink t =>
                simp only [hm] at h ⊢
                by_cases hcs : cs = []
                · simp only [hcs, true_and, if_true] at h
                  exact absurd rfl (h _ t)
                · simp only [hcs, false_and, if_false] at h ⊢
                  by_cases ht : t = ""
                  · simp only [ht, if_true]
                  · simp only [ht, if_false] at h ⊢
                    exact hnext _ _ h

/-- Where `lstat` does not end on a link, `stat` gives the same. -/
theorem walk_nofollow (fs : FS) (n : Nat) :
    ∀ cur cs, (∀ q t, walk fs false n cur cs ≠ .ok (q, Node.symlink t)) →
      walk fs true n cur cs = walk fs false n cur cs := by
  induction n with
  | zero =>
    intro cur cs h
    exact walkStep_nofollow fs _ _ (fun _ _ _ => rfl) cs cur h
  | succ n ih =>
    intro cur cs h
    exact walkStep_nofollow fs _ _ ih cs cur h

theorem stat_of_lstat (fs : FS) (p : Path)
    (h : ∀ q t, lstat fs p ≠ .ok (q, Node.symlink t)) : stat fs p = lstat fs p :=
  walk_nofollow fs 40 [] p h

theorem lstat_ok_of_stat_ok (fs : FS) (p : Path) (r : Path × Node) (h : stat fs p = .ok r) :
    ∃ r2, lstat fs p = .ok r2 := by
  cases hl : lstat fs p with
  | ok r2 => exact ⟨r2, rfl⟩
  | error e =>
    have := stat_of_lstat fs p (by rw [hl]; intro q t hq; cases hq)
    rw [h, hl] at this
    cases this

theorem not_special_of_valid (c : String) (h : validName c = true) :
    ¬ (c = "" ∨ c = ".") ∧ c ≠ ".." := by
  obtain ⟨h1, h2, h3, _⟩ := (validName_iff c).1 h
  exact ⟨by simp [h1, h2], h3⟩

theorem walkStep_snoc (fs : FS) (c : String) (hc : validName c = true)
    (nextT nextF : Path → List String → Except Errno (Path × Node))
    (hnext : ∀ cur cs, nextF cur (cs ++ [c]) = lastStep fs c (nextT cur cs))
    (cs : List String) :
    ∀ cur, walkStep nextF fs false cur (cs ++ [c]) =
      lastStep fs c (walkStep nextT fs true cur cs) := by
  obtain ⟨hs1, hs2⟩ := not_special_of_valid c hc
  induction cs with
  | nil =>
    intro cur
    rw [List.nil_append, walkStep, walkStep]
    cases hn : node fs cur with
    | none => rfl
    | some n =>
      cases n with
      | file => rfl
      | symlink t => rfl
      | dir =>
        simp only [hs1, hs2, if_false, lastStep]
        cases hm : node fs (cur ++ [c]) with
        | none => simp only [walkStep, hm]
        | some m =>
          cases m with
          | dir => simp only [walkStep, hm]
          | file => simp only [walkStep, hm]
          | symlink t => simp
  | cons x cs ih =>
    intro cur
    rw [List.cons_append, walkStep, walkStep]
    cases hn : node fs cur with
    | none => rfl
    | some n =>
      cases n with
      | file => rfl
      | symlink t => rfl
      | dir =>
        simp only
        by_cases hc1 : x = "" ∨ x = "."
        · simp only [hc1, if_true]
          exact ih cur
        · simp only [hc1, if_false]
          by_cases hc2 : x = ".."
          · simp only [hc2, if_true]
            exact ih _
          · simp only [hc2, if_false]
            cases hm : node fs (cur ++ [x]) with
            | none => exact ih _
            | some m =>
              cases m with
              | dir => exact ih _
              | file => exact ih _
              | symlink t =>
                have hne : ¬ (cs ++ [c] = [] ∧ False) := by simp
                simp only [List.append_eq_nil, List.cons_ne_nil, and_false, false_and,
                  if_false, Bool.true_eq_false]
                by_cases ht : t = ""
                · simp only [ht, if_true]
                  rfl
                · simp only [ht, if_false]
                  rw [← List.append_assoc]
                  exact hnext _ _

/-- The entry of a path is the entry of that name in the resolved parent. -/
theorem walk_snoc (fs : FS) (c : String) (hc : validName c = true) (n : Nat) :
    ∀ cur cs, walk fs false n cur (cs ++ [c]) = lastStep fs c (walk fs true n cur cs) := by
  induction n with
  | zero =>
    intro cur cs
    exact walkStep_snoc fs c hc _ _ (fun _ _ => rfl) cs cur
  | succ n ih =>
    intro cur cs
    exact walkStep_snoc fs c hc _ _ ih cs cur

theorem lstat_snoc (fs : FS) (p : Path) (c : String) (hc : validName c = true) :
    lstat fs (p ++ [c]) = lastStep fs c (stat fs p) :=
  walk_snoc fs c hc 40 [] p

/-! ## Theorems: versions that are not installed -/

theorem denial_not_enoent (d : Denial) : d.errno ≠ Errno.ENOENT := by
  cases d <;> simp [Denial.errno]

theorem isVersionInstalled_false_of_absent (deny : Denied) (home : Path) (fs : FS) (v : String)
    (hno : ∀ r, lstat fs (joinPath home ["sdk", normalizeVersionName v]) ≠ .ok r)
    (herr : (isVersionInstalled deny (some home) fs v).2 = none) :
    isVersionInstalled deny (some home) fs v = (false, none) := by
  unfold isVersionInstalled osStat at herr ⊢
  cases hd : deny Op.stat (joinPath home ["sdk", normalizeVersionName v]) with
  | some d =>
    simp only [hd] at herr
    cases d <;> simp [Denial.errno] at herr
  | none =>
    simp only [hd] at herr ⊢
    cases hs : stat fs (joinPath home ["sdk", normalizeVersionName v]) with
    | ok r =>
      obtain ⟨r2, hr2⟩ := lstat_ok_of_stat_ok fs _ r hs
      exact absurd hr2 (hno r2)
    | error e =>
      simp only [hs] at herr ⊢
      cases e <;> first | rfl | cases herr

/-- C3 (amended): when no entry is at `<home>/sdk/normalize(v)` and the
existence check raises no error other than not-found, `useVersion` and
`removeVersion` both return the error wrapping `ErrVersionNotFound`, print
nothing and leave the whole file system as it was. -/
theorem not_installed_no_mutation (deny : Denied) (home : Path) (fs : FS) (v : String)
    (hno : ∀ r, lstat fs (joinPath home ["sdk", normalizeVersionName v]) ≠ .ok r)
    (herr : (isVersionInstalled deny (some home) fs v).2 = none) :
    useVersion deny (some home) fs v = ⟨fs, [], some (Err.versionNotFound v)⟩ ∧
    removeVersion deny (some home) fs v = ⟨fs, [], some (Err.versionNotFound v)⟩ ∧
    (Err.versionNotFound v).wrapsVersionNotFound = true := by
  have h := isVersionInstalled_false_of_absent deny home fs v hno herr
  refine ⟨?_, ?_, rfl⟩
  · unfold useVersion
    rw [h]
  · unfold removeVersion
    rw [h]

theorem exEmptyHome_absent :
    ∀ r, lstat exEmptyHome (joinPath exHome ["sdk", normalizeVersionName "1.21"]) ≠ .ok r := by
  have h : lstat exEmptyHome (joinPath exHome ["sdk", normalizeVersionName "1.21"]) =
      .error .ENOENT := by rfl
  intro r hr
  rw [h] at hr
  cases hr

/-- Witness of C3 (amended): version `1.21` in a home directory with no `sdk`. -/
theorem not_installed_no_mutation_witness :
    lstat exEmptyHome (joinPath exHome ["sdk", normalizeVersionName "1.21"]) =
      .error .ENOENT ∧
    (isVersionInstalled allowAll (some exHome) exEmptyHome "1.21").2 = none ∧
    useVersion allowAll (some exHome) exEmptyHome "1.21" =
      ⟨exEmptyHome, [], some (Err.versionNotFound "1.21")⟩ ∧
    removeVersion allowAll (some exHome) exEmptyHome "1.21" =
      ⟨exEmptyHome, [], some (Err.versionNotFound "1.21")⟩ :=
  ⟨by rfl, by decide,
    (not_installed_no_mutation allowAll exHome exEmptyHome "1.21" exEmptyHome_absent
      (by decide)).1,
    (not_installed_no_mutation allowAll exHome exEmptyHome "1.21" exEmptyHome_absent
      (by decide)).2.1⟩

/-- C3 as stated fails: with a regular file at `/home/u/sdk` nothing is at
`/home/u/sdk/go1.21`, yet `useVersion` and `removeVersion` of `1.21` return
the error of the failed existence check (`ENOTDIR`), which does not wrap
`ErrVersionNotFound`. -/
theorem not_installed_other_error :
    node exSdkIsFile (joinPath exHome ["sdk", normalizeVersionName "1.21"]) = none ∧
    lstat exSdkIsFile (joinPath exHome ["sdk", normalizeVersionName "1.21"]) =
      .error .ENOTDIR ∧
    (useVersion allowAll (some exHome) exSdkIsFile "1.21").err =
      some (Err.checkInstalled .ENOTDIR) ∧
    (removeVersion allowAll (some exHome) exSdkIsFile "1.21").err =
      some (Err.checkInstalled .ENOTDIR) ∧
    (Err.checkInstalled .ENOTDIR).wrapsVersionNotFound = false := by
  refine ⟨by decide, by rfl, by decide, by decide, rfl⟩

/-- C8: at a state where `/home/u/sdk/go1.21` is a regular file and not a
directory, `isVersionInstalled` of `1.21` returns true with no error, while
`listLocalVersions` and `getInstalledVersions` do not list the entry. -/
theorem isVersionInstalled_true_for_file :
    lstat exReleaseIsFile (exHome ++ ["sdk", normalizeVersionName "1.21"]) =
      .ok (exHome ++ ["sdk", normalizeVersionName "1.21"], Node.file) ∧
    joinPath exHome ["sdk", normalizeVersionName "1.21"] =
      exHome ++ ["sdk", normalizeVersionName "1.21"] ∧
    isVersionInstalled allowAll (some exHome) exReleaseIsFile "1.21" = (true, none) ∧
    listLocalVersions allowAll (some exHome) exReleaseIsFile = ([], none) ∧
    getInstalledVersions allowAll (some exHome) exReleaseIsFile = ([], none) := by
  refine ⟨by rfl, by decide, by decide, by rfl, by rfl⟩

/-- C4: with releases `go1.20` and `go1.21` installed, `removeVersion` of the
string `go/..` succeeds and removes `/home/u/sdk` with both releases, though
neither name equals `normalize("go/..")`. -/
theorem removeVersion_traversal_removes_others :
    normalizeVersionName "go/.." = "go/.." ∧
    "go1.20" ≠ normalizeVersionName "go/.." ∧ "go1.21" ≠ normalizeVersionName "go/.." ∧
    lstat exTwoReleases (exHome ++ ["sdk", "go1.20"]) =
      .ok (exHome ++ ["sdk", "go1.20"], Node.dir) ∧
    lstat exTwoReleases (exHome ++ ["sdk", "go1.21"]) =
      .ok (exHome ++ ["sdk", "go1.21"], Node.dir) ∧
    joinPath exHome ["sdk", normalizeVersionName "go/.."] = exHome ++ ["sdk"] ∧
    removeVersion allowAll (some exHome) exTwoReleases "go/.." =
      ⟨exEmptyHome, ["Go version go/.. removed successfully."], none⟩ ∧
    lstat (removeVersion allowAll (some exHome) exTwoReleases "go/..").fs
      (exHome ++ ["sdk", "go1.20"]) = .error .ENOENT ∧
    lstat (removeVersion allowAll (some exHome) exTwoReleases "go/..").fs
      (exHome ++ ["sdk", "go1.21"]) = .error .ENOENT := by
  refine ⟨by decide, by decide, by decide, by rfl, by rfl, by decide, by decide, by rfl, by rfl⟩

/-! ## Theorems: local listing -/

theorem printDirs_eq (ds : List DirEntry) :
    printDirs ds = (ds.filter fun d => d.isDir).map fun d => d.name := by
  induction ds with
  | nil => rfl
  | cons d ds ih =>
    cases hd : d.isDir <;> simp [printDirs, List.filter_cons, hd, ih]

theorem appendDirs_eq (ds : List DirEntry) (acc : List String) :
    appendDirs acc ds = acc ++ (ds.filter fun d => d.isDir).map fun d => d.name := by
  induction ds generalizing acc with
  | nil => simp [appendDirs]
  | cons d ds ih =>
    cases hd : d.isDir <;> simp [appendDirs, List.filter_cons, hd, ih]

theorem stat_ok_of_readDir_ok (deny : Denied) (fs : FS) (p : Path) (dirs : List DirEntry)
    (h : readDir deny fs p = .ok dirs) : ∃ q, stat fs p = .ok (q, Node.dir) := by
  unfold readDir at h
  split at h
  · cases h
  · split at h
    · rename_i q hq
      exact ⟨q, hq⟩
    · cases h
    · cases h

theorem osStat_exists_of_readDir_ok (deny : Denied) (fs : FS) (p : Path)
    (dirs : List DirEntry) (h : readDir deny fs p = .ok dirs) :
    osStat deny fs p ≠ .error .ENOENT := by
  obtain ⟨q, hq⟩ := stat_ok_of_readDir_ok deny fs p dirs h
  unfold osStat
  rw [hq]
  cases hd : deny Op.stat p with
  | none => simp
  | some d =>
    intro hc
    simp only [Except.error.injEq] at hc
    exact denial_not_enoent d hc

theorem listLocalVersions_of_readDir (deny : Denied) (home : Path) (fs : FS)
    (dirs : List DirEntry) (h : readDir deny fs (joinPath home ["sdk"]) = .ok dirs) :
    listLocalVersions deny (some home) fs =
      ((dirs.filter fun d => d.isDir).map fun d => d.name, none) := by
  have hs := osStat_exists_of_readDir_ok deny fs _ dirs h
  unfold listLocalVersions
  simp only [h, printDirs_eq]

theorem getInstalledVersions_of_readDir (deny : Denied) (home : Path) (fs : FS)
    (dirs : List DirEntry) (h : readDir deny fs (joinPath home ["sdk"]) = .ok dirs) :
    getInstalledVersions deny (some home) fs =
      ((dirs.filter fun d => d.isDir).map fun d => d.name, none) := by
  unfold getInstalledVersions
  simp only [h, appendDirs_eq, List.nil_append]

/-- C9: for every listing `dirs` that `os.ReadDir` gives of `<home>/sdk`,
`listLocalVersions` prints and `getInstalledVersions` returns exactly the
names of the entries that are directories, each once per entry and in the
order of the listing; a second state whose listing has the same directory
entries (files added or removed) gives the same result. -/
theorem listLocalVersions_lists_directories (deny : Denied) (home : Path) (fs : FS)
    (dirs : List DirEntry) (h : readDir deny fs (joinPath home ["sdk"]) = .ok dirs) :
    listLocalVersions deny (some home) fs =
      ((dirs.filter fun d => d.isDir).map fun d => d.name, none) ∧
    getInstalledVersions deny (some home) fs =
      ((dirs.filter fun d => d.isDir).map fun d => d.name, none) ∧
    (∀ (fs2 : FS) (pre post : List DirEntry) (f : DirEntry), f.isDir = false →
      dirs = pre ++ post → readDir deny fs2 (joinPath home ["sdk"]) = .ok (pre ++ f :: post) →
      listLocalVersions deny (some home) fs2 = listLocalVersions deny (some home) fs ∧
      getInstalledVersions deny (some home) fs2 = getInstalledVersions deny (some home) fs) := by
  refine ⟨listLocalVersions_of_readDir deny home fs dirs h,
    getInstalledVersions_of_readDir deny home fs dirs h, ?_⟩
  intro fs2 pre post f hf hd h2
  rw [listLocalVersions_of_readDir deny home fs2 _ h2,
    getInstalledVersions_of_readDir deny home fs2 _ h2,
    listLocalVersions_of_readDir deny home fs dirs h,
    getInstalledVersions_of_readDir deny home fs dirs h, hd]
  simp [List.filter_cons, hf]

/-- Witness of C9: the listing of `/home/u/sdk` with releases `go1.20` and
`go1.21`, and the same with the file `notes.txt` added. -/
theorem listLocalVersions_lists_directories_witness :
    readDir allowAll exTwoReleases (joinPath exHome ["sdk"]) =
      .ok [⟨"go1.20", true⟩, ⟨"go1.21", true⟩] ∧
    listLocalVersions allowAll (some exHome) exTwoReleases = (["go1.20", "go1.21"], none) ∧
    getInstalledVersions allowAll (some exHome) exTwoReleases = (["go1.20", "go1.21"], none) ∧
    listLocalVersions allowAll (some exHome) exReleasesAndFile =
      (["go1.20", "go1.21"], none) :=
  ⟨by rfl,
    (listLocalVersions_lists_directories allowAll exHome exTwoReleases
      [⟨"go1.20", true⟩, ⟨"go1.21", true⟩] (by rfl)).1,
    (listLocalVersions_lists_directories allowAll exHome exTwoReleases
      [⟨"go1.20", true⟩, ⟨"go1.21", true⟩] (by rfl)).2.1,
    ((listLocalVersions_lists_directories allowAll exHome exTwoReleases
      [⟨"go1.20", true⟩, ⟨"go1.21", true⟩] (by rfl)).2.2 exReleasesAndFile
      [⟨"go1.20", true⟩, ⟨"go1.21", true⟩] [] ⟨"notes.txt", false⟩ rfl (by simp)
      (by rfl)).1.trans
      (listLocalVersions_lists_directories allowAll exHome exTwoReleases
        [⟨"go1.20", true⟩, ⟨"go1.21", true⟩] (by rfl)).1⟩

/-! ## Theorems: install -/

theorem intercalate_go (s acc : String) (l : List String) :
    String.intercalate.go acc s l = acc ++ l.foldr (fun a r => s ++ a ++ r) "" := by
  induction l generalizing acc with
  | nil => simp [String.intercalate.go]
  | cons a l ih =>
    rw [String.intercalate.go, ih]
    simp [String.append_assoc]

theorem foldr_sep_append (s tail : String) (l : List String) :
    l.foldr (fun a r => s ++ a ++ r) tail = l.foldr (fun a r => s ++ a ++ r) "" ++ tail := by
  induction l with
  | nil => simp
  | cons a l ih =>
    rw [List.foldr_cons, ih, List.foldr_cons]
    simp [String.append_assoc]

/-- The string of a path below a directory other than the root is the
string of the directory followed by `/` and each further component. -/
theorem render_append (h : String) (t q : List String) :
    render (h :: t ++ q) = render (h :: t) ++ q.foldr (fun a r => "/" ++ a ++ r) "" := by
  unfold render
  rw [List.cons_append, String.intercalate, String.intercalate, intercalate_go, intercalate_go,
    List.foldr_append, foldr_sep_append "/" _ t]
  simp [String.append_assoc]

theorem useVersion_same_name (deny : Denied) (usr : Option Path) (fs : FS) (v w : String)
    (h : normalizeVersionName v = normalizeVersionName w) :
    (useVersion deny usr fs v).fs = (useVersion deny usr fs w).fs ∧
    ((useVersion deny usr fs v).err = none ↔ (useVersion deny usr fs w).err = none) := by
  unfold useVersion isVersionInstalled
  simp only [h]
  cases usr with
  | none => simp
  | some home =>
    simp only
    cases osStat deny fs (joinPath home ["sdk", normalizeVersionName w]) with
    | error e => cases e <;> simp
    | ok n =>
      simp only
      cases mkdirAll deny fs (joinPath home [".gvs", "bin"]) with
      | mk fs1 e1 =>
        cases e1 with
        | some e => simp
        | none =>
          simp only
          generalize (match osLstat deny fs1 (joinPath (joinPath home [".gvs", "bin"]) ["go"]) with
            | .ok _ => remove deny fs1 (joinPath (joinPath home [".gvs", "bin"]) ["go"])
            | .error _ => (fs1, none)) = removed
          cases removed with
          | mk fs2 e2 =>
            cases e2 with
            | some e => simp
            | none =>
              simp only
              cases symlink deny fs2
                (render (joinPath home ["sdk", normalizeVersionName w, "bin", "go"]))
                (joinPath (joinPath home [".gvs", "bin"]) ["go"]) with
              | mk fs3 e3 => cases e3 <;> simp

theorem removeVersion_same_name (deny : Denied) (usr : Option Path) (fs : FS) (v w : String)
    (h : normalizeVersionName v = normalizeVersionName w) :
    (removeVersion deny usr fs v).fs = (removeVersion deny usr fs w).fs ∧
    ((removeVersion deny usr fs v).err = none ↔ (removeVersion deny usr fs w).err = none) := by
  unfold removeVersion isVersionInstalled
  simp only [h]
  cases usr with
  | none => simp
  | some home =>
    simp only
    cases osStat deny fs (joinPath home ["sdk", normalizeVersionName w]) with
    | error e => cases e <;> simp
    | ok n =>
      simp only
      cases removeAll deny fs (joinPath home ["sdk", normalizeVersionName w]) with
      | mk fs1 e1 =>
        cases e1 with
        | some e => simp
        | none =>
          simp only
          cases osLstat deny fs1 (joinPath (joinPath home [".gvs", "bin"]) ["go"]) with
          | error e => simp
          | ok n1 =>
            simp only
            cases readlink deny fs1 (joinPath (joinPath home [".gvs", "bin"]) ["go"]) with
            | error e => simp
            | ok link =>
              simp only
              split
              · cases remove deny fs1 (joinPath (joinPath home [".gvs", "bin"]) ["go"]) with
                | mk fs2 e2 => cases e2 <;> simp
              · simp

/-- C10: the name `installVersion` builds, `go` followed by the version with
its leading `go` trimmed, is `normalizeVersionName` of the version; the
commands it runs are `go install golang.org/dl/<name>@latest` and then, when
that succeeds, `<home>/go/bin/<name> download` (for home `/home/u` and
version `1.21.0` or `go1.21.0`: `/home/u/go/bin/go1.21.0 download`);
`1.21.0` and `go1.21.0` run the same commands; and `isVersionInstalled`,
`useVersion` and `removeVersion` treat that name as they treat the
version. -/
theorem installVersion_uses_normalized (home : Path) (run : Cmd → Bool) (v : String) :
    "go" ++ trimPrefix v "go" = normalizeVersionName v ∧
    (installVersion (some home) run v).cmds =
      (if run ⟨"go", ["install", "golang.org/dl/" ++ normalizeVersionName v ++ "@latest"]⟩
       then [⟨"go", ["install", "golang.org/dl/" ++ normalizeVersionName v ++ "@latest"]⟩,
             ⟨render (joinPath home ["go", "bin", normalizeVersionName v]), ["download"]⟩]
       else [⟨"go", ["install", "golang.org/dl/" ++ normalizeVersionName v ++ "@latest"]⟩]) ∧
    (∀ (h : String) (t : List String), home = h :: t →
      validName (normalizeVersionName v) = true →
      render (joinPath home ["go", "bin", normalizeVersionName v]) =
        render home ++ "/go/bin/" ++ normalizeVersionName v) ∧
    render ["home", "u"] = "/home/u" ∧
    installVersion (some home) run "1.21.0" = installVersion (some home) run "go1.21.0" ∧
    (installVersion (some ["home", "u"]) (fun _ => true) "1.21.0").cmds =
      [⟨"go", ["install", "golang.org/dl/go1.21.0@latest"]⟩,
       ⟨"/home/u/go/bin/go1.21.0", ["download"]⟩] ∧
    (installVersion (some ["home", "u"]) (fun _ => true) "go1.21.0").cmds =
      [⟨"go", ["install", "golang.org/dl/go1.21.0@latest"]⟩,
       ⟨"/home/u/go/bin/go1.21.0", ["download"]⟩] ∧
    (∀ (deny : Denied) (fs : FS),
      isVersionInstalled deny (some home) fs ("go" ++ trimPrefix v "go") =
        isVersionInstalled deny (some home) fs v ∧
      (useVersion deny (some home) fs ("go" ++ trimPrefix v "go")).fs =
        (useVersion deny (some home) fs v).fs ∧
      ((useVersion deny (some home) fs ("go" ++ trimPrefix v "go")).err = none ↔
        (useVersion deny (some home) fs v).err = none) ∧
      (removeVersion deny (some home) fs ("go" ++ trimPrefix v "go")).fs =
        (removeVersion deny (some home) fs v).fs ∧
      ((removeVersion deny (some home) fs ("go" ++ trimPrefix v "go")).err = none ↔
        (removeVersion deny (some home) fs v).err = none)) := by
  have hname := go_trimPrefix v
  have hnorm : normalizeVersionName ("go" ++ trimPrefix v "go") = normalizeVersionName v := by
    rw [hname, normalize_of_hasPrefix _ (hasPrefix_normalize v)]
  have hpkg : "golang.org/dl/go" ++ trimPrefix v "go" ++ "@latest" =
      "golang.org/dl/" ++ normalizeVersionName v ++ "@latest" := by
    rw [← hname]
    apply String.ext
    simp [String.data_append]
  refine ⟨hname, ?_, ?_, by decide, rfl, by decide, by decide, ?_⟩
  · unfold installVersion
    simp only [hpkg, hname]
    cases run ⟨"go", ["install", "golang.org/dl/" ++ normalizeVersionName v ++ "@latest"]⟩
    · simp
    · cases run ⟨render (joinPath home ["go", "bin", normalizeVersionName v]), ["download"]⟩ <;> simp
  · intro h t hh hv
    have hj : joinPath home ["go", "bin", normalizeVersionName v] =
        home ++ ["go", "bin", normalizeVersionName v] := by
      apply joinPath_valid
      intro e he
      simp only [List.mem_cons, List.mem_singleton, List.not_mem_nil, or_false] at he
      rcases he with rfl | rfl | rfl
      · decide
      · decide
      · exact hv
    rw [hj, hh, render_append]
    simp only [List.foldr_cons, List.foldr_nil, String.append_assoc]
    congr 1
    apply String.ext
    simp [String.data_append]
  · intro deny fs
    refine ⟨?_, (useVersion_same_name deny _ fs _ _ hnorm).1,
      (useVersion_same_name deny _ fs _ _ hnorm).2,
      (removeVersion_same_name deny _ fs _ _ hnorm).1,
      (removeVersion_same_name deny _ fs _ _ hnorm).2⟩
    unfold isVersionInstalled
    rw [hnorm]

/-- Witness of C10: the downloader path for home `/home/u` and version
`1.21.0`. -/
theorem installVersion_uses_normalized_witness :
    validName (normalizeVersionName "1.21.0") = true ∧
    render (joinPath ["home", "u"] ["go", "bin", normalizeVersionName "1.21.0"]) =
      "/home/u" ++ "/go/bin/" ++ "go1.21.0" :=
  ⟨by decide,
    ((installVersion_uses_normalized ["home", "u"] (fun _ => true) "1.21.0").2.2.1
      "home" ["u"] rfl (by decide)).trans (by decide)⟩

/-! ## Theorems: removal -/

theorem joinPath_append (base : Path) (xs ys : List String) :
    joinPath (joinPath base xs) ys = joinPath base (xs ++ ys) := by
  unfold joinPath
  rw [List.flatMap_append, List.foldl_append]

theorem link_names (home : Path) :
    joinPath home [".gvs", "bin"] = home ++ [".gvs", "bin"] ∧
    joinPath (home ++ [".gvs", "bin"]) ["go"] = home ++ [".gvs", "bin", "go"] := by
  constructor
  · exact joinPath_valid _ _ (by intro e he; simp at he; rcases he with rfl | rfl <;> decide)
  · rw [joinPath_valid _ _ (by intro e he; simp at he; rcases he with rfl; decide)]
    simp

theorem lstat_root (fs : FS) : lstat fs [] = .ok ([], Node.dir) := by
  rfl

theorem lstat_ok (fs : FS) (p : Path) (r : Path × Node) (h : lstat fs p = .ok r) :
    r.1 ∈ lstatReads fs p ∧ (∀ q ∈ lstatReads fs p, node fs q ≠ none) ∧
    node fs r.1 = some r.2 :=
  walk_ok fs false 40 [] p r h

theorem stat_ok (fs : FS) (p : Path) (r : Path × Node) (h : stat fs p = .ok r) :
    r.1 ∈ statReads fs p ∧ (∀ q ∈ statReads fs p, node fs q ≠ none) ∧
    node fs r.1 = some r.2 :=
  walk_ok fs true 40 [] p r h

/-- After a tree is removed a path resolves as before or not at all. -/
theorem lstat_removeTree (fs : FS) (c p : Path) :
    lstat (fs.filter fun e => !decide (c <+: e.1)) p = lstat fs p ∨
    lstat (fs.filter fun e => !decide (c <+: e.1)) p = .error .ENOENT :=
  walk_filter fs (fun q => !decide (c <+: q)) false 40 [] p

theorem lstat_removeTree_same (fs : FS) (c p : Path)
    (h : ∀ q ∈ lstatReads fs p, ¬ c <+: q) :
    lstat (fs.filter fun e => !decide (c <+: e.1)) p = lstat fs p :=
  walk_filter_same fs (fun q => !decide (c <+: q)) false 40 [] p
    (fun q hq => Or.inr (by simpa using h q hq))

theorem lstat_removeTree_gone (fs : FS) (c p : Path) (r : Path × Node)
    (h : lstat fs p = .ok r) (hc : c <+: r.1) (hne : r.1 ≠ []) :
    lstat (fs.filter fun e => !decide (c <+: e.1)) p = .error .ENOENT := by
  apply walk_filter_gone fs (fun q => !decide (c <+: q)) false 40 [] p
  intro hall
  rcases hall r.1 (lstat_ok fs p r h).1 with h1 | h1
  · exact hne h1
  · simp [hc] at h1

/-- After one row is removed a path resolves as before or not at all. -/
theorem lstat_unlink (fs : FS) (c p : Path) :
    lstat (fs.filter fun e => decide (e.1 ≠ c)) p = lstat fs p ∨
    lstat (fs.filter fun e => decide (e.1 ≠ c)) p = .error .ENOENT :=
  walk_filter fs (fun q => decide (q ≠ c)) false 40 [] p

theorem lstat_unlink_gone (fs : FS) (p : Path) (c : Path) (n : Node)
    (h : lstat fs p = .ok (c, n)) (hne : c ≠ []) :
    lstat (fs.filter fun e => decide (e.1 ≠ c)) p = .error .ENOENT := by
  apply walk_filter_gone fs (fun q => decide (q ≠ c)) false 40 [] p
  intro hall
  rcases hall c (lstat_ok fs p _ h).1 with h1 | h1
  · exact hne h1
  · simp at h1

theorem ne_nil_of_symlink (fs : FS) (c : Path) (t : String)
    (h : node fs c = some (Node.symlink t)) : c ≠ [] := by
  intro hc
  rw [hc] at h
  simp [node] at h

theorem pinned_false (deny : Denied) (fs : FS) (c q : Path) (hq : c <+: q)
    (hperm : ∀ x, c <+: x → deny Op.remove x = none) : pinned deny fs q = false := by
  unfold pinned
  rw [List.any_eq_false]
  intro e _
  by_cases he : q <+: e.1
  · simp [hperm e.1 (hq.trans he)]
  · simp [he]

theorem firstRefusal_none (deny : Denied) (fs : FS) (c : Path)
    (hperm : ∀ x, c <+: x → deny Op.remove x = none) : firstRefusal deny fs c = none := by
  unfold firstRefusal
  have hnone : (fs.find? fun e => decide (c <+: e.1) && (deny Op.remove e.1).isSome) = none := by
    rw [List.find?_eq_none]
    intro e _
    by_cases he : c <+: e.1
    · simp [hperm e.1 he]
    · simp [he]
  rw [hnone]

/-- The table after `os.RemoveAll` of an entry the system lets go. -/
theorem removeAll_ok (deny : Denied) (fs : FS) (p c : Path) (n : Node)
    (h : lstat fs p = .ok (c, n)) (hc : c ≠ [])
    (hperm : ∀ x, c <+: x → deny Op.remove x = none) :
    removeAll deny fs p = (fs.filter fun e => !decide (c <+: e.1), none) := by
  have hp : p ≠ [] := by
    intro hp
    rw [hp, lstat_root] at h
    simp only [Except.ok.injEq, Prod.mk.injEq] at h
    exact hc h.1.symm
  unfold removeAll
  simp only [hp, if_false, h, firstRefusal_none deny fs c hperm]
  congr 1
  apply List.filter_congr
  intro e _
  by_cases he : c <+: e.1
  · simp [he, pinned_false deny fs c e.1 he hperm]
  · simp [he]

theorem stat_ok_of_installed (deny : Denied) (home : Path) (fs : FS) (v : String)
    (h : isVersionInstalled deny (some home) fs v = (true, none)) :
    ∃ r, stat fs (joinPath home ["sdk", normalizeVersionName v]) = .ok r := by
  unfold isVersionInstalled osStat at h
  cases hd : deny Op.stat (joinPath home ["sdk", normalizeVersionName v]) with
  | some d =>
    simp only [hd] at h
    cases d <;> simp [Denial.errno] at h
  | none =>
    simp only [hd] at h
    cases hs : stat fs (joinPath home ["sdk", normalizeVersionName v]) with
    | ok r => exact ⟨r, rfl⟩
    | error e =>
      simp only [hs] at h
      cases e <;> simp at h

theorem osLstat_of_ok (deny : Denied) (fs : FS) (p c : Path) (n : Node)
    (hd : deny Op.lstat p = none) (h : lstat fs p = .ok (c, n)) :
    osLstat deny fs p = .ok n := by
  unfold osLstat
  rw [hd, h]

theorem osLstat_of_error (deny : Denied) (fs : FS) (p : Path) (e : Errno)
    (h : lstat fs p = .error e) : ∃ e2, osLstat deny fs p = .error e2 := by
  unfold osLstat
  rw [h]
  cases deny Op.lstat p with
  | none => exact ⟨e, rfl⟩
  | some d => exact ⟨d.errno, rfl⟩

theorem osLstat_denied (deny : Denied) (fs : FS) (p : Path) (d : Denial)
    (hd : deny Op.lstat p = some d) : osLstat deny fs p = .error d.errno := by
  unfold osLstat
  rw [hd]

theorem readlink_of_link (deny : Denied) (fs : FS) (p c : Path) (t : String)
    (hd : deny Op.readlink p = none) (h : lstat fs p = .ok (c, Node.symlink t)) :
    readlink deny fs p = .ok t := by
  unfold readlink
  rw [hd, h]

theorem remove_link (deny : Denied) (fs : FS) (p c : Path) (t : String)
    (hd : deny Op.remove c = none) (h : lstat fs p = .ok (c, Node.symlink t)) :
    remove deny fs p = (fs.filter fun e => decide (e.1 ≠ c), none) := by
  unfold remove
  rw [h]
  simp only [hd]

/-- What `removeVersion` computes once the release is found and its tree
may be removed. -/
theorem removeVersion_reduce (deny : Denied) (home : Path) (fs : FS) (v : String)
    (c : Path) (n : Node)
    (hinst : isVersionInstalled deny (some home) fs v = (true, none))
    (hR : lstat fs (joinPath home ["sdk", normalizeVersionName v]) = .ok (c, n))
    (hroot : c ≠ [])
    (hperm : ∀ x, c <+: x → deny Op.remove x = none) :
    removeVersion deny (some home) fs v =
      match osLstat deny (fs.filter fun e => !decide (c <+: e.1))
          (home ++ [".gvs", "bin", "go"]) with
      | .error _ =>
        ⟨fs.filter fun e => !decide (c <+: e.1),
          ["Go version " ++ v ++ " removed successfully."], none⟩
      | .ok _ =>
        match readlink deny (fs.filter fun e => !decide (c <+: e.1))
            (home ++ [".gvs", "bin", "go"]) with
        | .error e => ⟨fs.filter fun e => !decide (c <+: e.1), [], some (Err.readSymlink e)⟩
        | .ok link =>
          if link = render (joinPath home ["sdk", normalizeVersionName v, "bin", "go"]) then
            match remove deny (fs.filter fun e => !decide (c <+: e.1))
                (home ++ [".gvs", "bin", "go"]) with
            | (fs2, some e) => ⟨fs2, [], some (Err.removeSymlink e)⟩
            | (fs2, none) => ⟨fs2, ["Go version " ++ v ++ " removed successfully."], none⟩
          else
            ⟨fs.filter fun e => !decide (c <+: e.1),
              ["Go version " ++ v ++ " removed successfully."], none⟩ := by
  obtain ⟨hb, hl⟩ := link_names home
  have hx : joinPath (joinPath home ["sdk", normalizeVersionName v]) ["bin", "go"] =
      joinPath home ["sdk", normalizeVersionName v, "bin", "go"] := joinPath_append _ _ _
  unfold removeVersion
  simp only [hinst, hb, hl, hx, removeAll_ok deny fs _ c n hR hroot hperm]

/-- The state right after the tree of the release is removed. -/
theorem release_removed (fs : FS) (p c : Path) (n : Node) (hR : lstat fs p = .ok (c, n))
    (hroot : c ≠ []) :
    lstat (fs.filter fun e => !decide (c <+: e.1)) p = .error .ENOENT ∧
    (∀ q, c <+: q → lookupNode (fs.filter fun e => !decide (c <+: e.1)) q = none) := by
  refine ⟨lstat_removeTree_gone fs c p (c, n) hR (List.prefix_refl _) hroot, ?_⟩
  intro q hq
  rw [lookupNode_filter (fun k => !decide (c <+: k))]
  simp [hq]

theorem node_append_new (fs : FS) (p : Path) (n : Node) (h : node fs p = none) :
    node (fs ++ [(p, n)]) p = some n := by
  unfold node at h ⊢
  by_cases hp : p = []
  · simp [hp] at h
  · simp only [hp, if_false] at h ⊢
    rw [lookupNode_append, h]
    simp [lookupNode]

theorem lastStep_dir (fs : FS) (c : String) (par : Path) :
    lastStep fs c (.ok (par, Node.dir)) =
      match node fs (par ++ [c]) with
      | some m => .ok (par ++ [c], m)
      | none => .error .ENOENT := rfl

/-- What a successful `os.Symlink` leaves: the link, at the entry of the
resolved parent, where nothing was before. -/
theorem symlink_ok (deny : Denied) (fs fs3 : FS) (target : String) (p : Path) (c : String)
    (hc : validName c = true)
    (h : symlink deny fs target (p ++ [c]) = (fs3, none)) :
    ∃ par, stat fs p = .ok (par, Node.dir) ∧ node fs (par ++ [c]) = none ∧
      deny Op.symlink (par ++ [c]) = none ∧
      fs3 = fs ++ [(par ++ [c], Node.symlink target)] ∧
      lstat fs3 (p ++ [c]) = .ok (par ++ [c], Node.symlink target) := by
  unfold symlink at h
  rw [List.getLast?_concat, List.dropLast_concat] at h
  cases hl : lstat fs (p ++ [c]) with
  | ok r =>
    rw [hl] at h
    cases h
  | error e =>
    rw [hl] at h
    simp only at h
    cases hs : stat fs p with
    | error e2 =>
      rw [hs] at h
      cases h
    | ok r =>
      obtain ⟨par, m⟩ := r
      rw [hs] at h
      cases m with
      | file => cases h
      | symlink t => cases h
      | dir =>
        simp only at h
        cases hd : deny Op.symlink (par ++ [c]) with
        | some d =>
          rw [hd] at h
          cases h
        | none =>
          rw [hd] at h
          simp only [Prod.mk.injEq, and_true] at h
          have hnone : node fs (par ++ [c]) = none := by
            rw [lstat_snoc fs p c hc, hs, lastStep_dir] at hl
            cases hn : node fs (par ++ [c]) with
            | none => rfl
            | some k =>
              rw [hn] at hl
              cases hl
          refine ⟨par, rfl, hnone, hd, h.symm, ?_⟩
          rw [← h, lstat_snoc _ p c hc]
          have hs3 : stat (fs ++ [(par ++ [c], Node.symlink target)]) p = .ok (par, Node.dir) :=
            walk_append fs _ true 40 [] p _ hs
          rw [hs3, lastStep_dir, node_append_new fs _ _ hnone]

theorem link_split (home : Path) :
    home ++ [".gvs", "bin", "go"] = home ++ [".gvs", "bin"] ++ ["go"] := by simp

theorem useVersion_ok_link (deny : Denied) (home : Path) (fs0 : FS) (v : String)
    (h : (useVersion deny (some home) fs0 v).err = none) :
    ∃ c, lstat (useVersion deny (some home) fs0 v).fs (home ++ [".gvs", "bin", "go"]) =
      .ok (c, Node.symlink
        (render (joinPath home ["sdk", normalizeVersionName v, "bin", "go"]))) := by
  obtain ⟨hb, hl⟩ := link_names home
  unfold useVersion at h ⊢
  simp only [hb, hl] at h ⊢
  split at h
  · cases h
  · cases h
  · split at h
    · cases h
    · split at h
      · cases h
      · split at h
        · cases h
        · rename_i hsl
          rw [link_split] at hsl
          obtain ⟨par, _, _, _, _, hlink⟩ := symlink_ok deny _ _ _ _ "go" (by decide) hsl
          rw [link_split]
          exact ⟨par ++ ["go"], hlink⟩

/-- C1 (amended): let `removeVersion(v)` find the release
(`isVersionInstalled` is true), let the entry of the release path
`<home>/sdk/normalize(v)` be at the resolved path `c`, not the root, and
let the system refuse the removal of nothing at or below `c`. If the link
`<home>/.gvs/bin/go` exists with target `<home>/sdk/normalize(v)/bin/go` and
the system refuses neither `Lstat` and `Readlink` of the link path nor the
removal of the link, `removeVersion(v)` succeeds and afterwards the release
(with every entry below it) and the link are absent. If no entry is at the
link path, `removeVersion(v)` succeeds, the release is absent and still no
entry is at the link path. If a link with any other target is there, the
system does not refuse `Readlink` of it and the link path is not resolved
through an entry at or below `c`, `removeVersion(v)` succeeds, the release
is absent and the link is as before. In particular, when the state is the
one a successful `useVersion(v)` left, `removeVersion(v)` leaves no
link. -/
theorem removeVersion_installed (deny : Denied) (home : Path) (fs : FS) (v : String)
    (c : Path) (n : Node)
    (hinst : isVersionInstalled deny (some home) fs v = (true, none))
    (hR : lstat fs (joinPath home ["sdk", normalizeVersionName v]) = .ok (c, n))
    (hroot : c ≠ [])
    (hperm : ∀ x, c <+: x → deny Op.remove x = none) :
    (∀ l : Path,
      lstat fs (home ++ [".gvs", "bin", "go"]) =
        .ok (l, Node.symlink
          (render (joinPath home ["sdk", normalizeVersionName v, "bin", "go"]))) →
      deny Op.lstat (home ++ [".gvs", "bin", "go"]) = none →
      deny Op.readlink (home ++ [".gvs", "bin", "go"]) = none →
      deny Op.remove l = none →
      (removeVersion deny (some home) fs v).err = none ∧
      lstat (removeVersion deny (some home) fs v).fs
        (joinPath home ["sdk", normalizeVersionName v]) = .error .ENOENT ∧
      (∀ q, c <+: q → lookupNode (removeVersion deny (some home) fs v).fs q = none) ∧
      lstat (removeVersion deny (some home) fs v).fs (home ++ [".gvs", "bin", "go"]) =
        .error .ENOENT) ∧
    ((∀ r, lstat fs (home ++ [".gvs", "bin", "go"]) ≠ .ok r) →
      (removeVersion deny (some home) fs v).err = none ∧
      lstat (removeVersion deny (some home) fs v).fs
        (joinPath home ["sdk", normalizeVersionName v]) = .error .ENOENT ∧
      (∀ q, c <+: q → lookupNode (removeVersion deny (some home) fs v).fs q = none) ∧
      (∀ r, lstat (removeVersion deny (some home) fs v).fs
        (home ++ [".gvs", "bin", "go"]) ≠ .ok r)) ∧
    (∀ (l : Path) (t : String),
      lstat fs (home ++ [".gvs", "bin", "go"]) = .ok (l, Node.symlink t) →
      t ≠ render (joinPath home ["sdk", normalizeVersionName v, "bin", "go"]) →
      deny Op.readlink (home ++ [".gvs", "bin", "go"]) = none →
      (∀ q ∈ lstatReads fs (home ++ [".gvs", "bin", "go"]), ¬ c <+: q) →
      (removeVersion deny (some home) fs v).err = none ∧
      lstat (removeVersion deny (some home) fs v).fs
        (joinPath home ["sdk", normalizeVersionName v]) = .error .ENOENT ∧
      (∀ q, c <+: q → lookupNode (removeVersion deny (some home) fs v).fs q = none) ∧
      lstat (removeVersion deny (some home) fs v).fs (home ++ [".gvs", "bin", "go"]) =
        .ok (l, Node.symlink t)) ∧
    (∀ fs0 : FS, (useVersion deny (some home) fs0 v).err = none →
      (useVersion deny (some home) fs0 v).fs = fs →
      deny Op.lstat (home ++ [".gvs", "bin", "go"]) = none →
      deny Op.readlink (home ++ [".gvs", "bin", "go"]) = none →
      (∀ l k, lstat fs (home ++ [".gvs", "bin", "go"]) = .ok (l, k) → deny Op.remove l = none) →
      (removeVersion deny (some home) fs v).err = none ∧
      lstat (removeVersion deny (some home) fs v).fs (home ++ [".gvs", "bin", "go"]) =
        .error .ENOENT) := by
  obtain ⟨hgone, htree⟩ := release_removed fs _ c n hR hroot
  have hred := removeVersion_reduce deny home fs v c n hinst hR hroot hperm
  have hA : ∀ l : Path,
      lstat fs (home ++ [".gvs", "bin", "go"]) =
        .ok (l, Node.symlink
          (render (joinPath home ["sdk", normalizeVersionName v, "bin", "go"]))) →
      deny Op.lstat (home ++ [".gvs", "bin", "go"]) = none →
      deny Op.readlink (home ++ [".gvs", "bin", "go"]) = none →
      deny Op.remove l = none →
      (removeVersion deny (some home) fs v).err = none ∧
      lstat (removeVersion deny (some home) fs v).fs
        (joinPath home ["sdk", normalizeVersionName v]) = .error .ENOENT ∧
      (∀ q, c <+: q → lookupNode (removeVersion deny (some home) fs v).fs q = none) ∧
      lstat (removeVersion deny (some home) fs v).fs (home ++ [".gvs", "bin", "go"]) =
        .error .ENOENT := by
    intro l hl hd1 hd2 hd3
    rcases lstat_removeTree fs c (home ++ [".gvs", "bin", "go"]) with hsame | hlost
    · rw [hl] at hsame
      rw [hred, osLstat_of_ok deny _ _ l _ hd1 hsame, readlink_of_link deny _ _ l _ hd2 hsame]
      simp only [if_true, remove_link deny _ _ l _ hd3 hsame]
      refine ⟨trivial, ?_, ?_, ?_⟩
      · rcases lstat_unlink (fs.filter fun e => !decide (c <+: e.1)) l
          (joinPath home ["sdk", normalizeVersionName v]) with h1 | h1
        · rw [h1, hgone]
        · exact h1
      · intro q hq
        rw [lookupNode_filter (fun k => decide (k ≠ l)), htree q hq]
        simp
      · exact lstat_unlink_gone _ _ l _ hsame
          (ne_nil_of_symlink _ l _ (lstat_ok _ _ _ hsame).2.2)
    · obtain ⟨e2, he2⟩ := osLstat_of_error deny _ _ _ hlost
      rw [hred, he2]
      exact ⟨rfl, hgone, htree, hlost⟩
  refine ⟨hA, ?_, ?_, ?_⟩
  · intro hno
    have hlost : ∃ e, lstat (fs.filter fun e => !decide (c <+: e.1))
        (home ++ [".gvs", "bin", "go"]) = .error e := by
      rcases lstat_removeTree fs c (home ++ [".gvs", "bin", "go"]) with h1 | h1
      · cases hl : lstat fs (home ++ [".gvs", "bin", "go"]) with
        | ok r => exact absurd hl (hno r)
        | error e => exact ⟨e, by rw [h1, hl]⟩
      · exact ⟨_, h1⟩
    obtain ⟨e, he⟩ := hlost
    obtain ⟨e2, he2⟩ := osLstat_of_error deny _ _ _ he
    rw [hred, he2]
    refine ⟨rfl, hgone, htree, ?_⟩
    intro r hr
    rw [he] at hr
    cases hr
  · intro l t hl hne hd2 hframe
    have hsame := lstat_removeTree_same fs c _ hframe
    rw [hl] at hsame
    rw [hred]
    cases hd1 : deny Op.lstat (home ++ [".gvs", "bin", "go"]) with
    | some d =>
      rw [osLstat_denied deny _ _ d hd1]
      exact ⟨rfl, hgone, htree, hsame⟩
    | none =>
      rw [osLstat_of_ok deny _ _ l _ hd1 hsame, readlink_of_link deny _ _ l _ hd2 hsame]
      simp only [if_neg hne]
      exact ⟨trivial, hgone, htree, hsame⟩
  · intro fs0 hok hfs hd1 hd2 hd3
    obtain ⟨l, hl⟩ := useVersion_ok_link deny home fs0 v hok
    rw [hfs] at hl
    have h := hA l hl hd1 hd2 (hd3 l _ hl)
    exact ⟨h.1, h.2.2.2⟩


/-- Witness of C1 (amended): `removeVersion("1.21/")` where `/home/u/.gvs` is
a link to `/data/gvs` and the active link there points to `go1.21`;
`removeVersion("1.21")` where the active link points to `go1.20`, and where
there is no link; `removeVersion("1.22.1")` after `useVersion("1.22.1")`. -/
theorem removeVersion_installed_witness :
    isVersionInstalled allowAll (some exHome) exGvsIsLink "1.21/" = (true, none) ∧
    lstat exGvsIsLink (joinPath exHome ["sdk", normalizeVersionName "1.21/"]) =
      .ok (["home", "u", "sdk", "go1.21"], Node.dir) ∧
    lstat exGvsIsLink (exHome ++ [".gvs", "bin", "go"]) =
      .ok (["data", "gvs", "bin", "go"], Node.symlink "/home/u/sdk/go1.21/bin/go") ∧
    (removeVersion allowAll (some exHome) exGvsIsLink "1.21/").err = none ∧
    lstat (removeVersion allowAll (some exHome) exGvsIsLink "1.21/").fs
      (joinPath exHome ["sdk", normalizeVersionName "1.21/"]) = .error .ENOENT ∧
    lstat (removeVersion allowAll (some exHome) exGvsIsLink "1.21/").fs
      (exHome ++ [".gvs", "bin", "go"]) = .error .ENOENT ∧
    lstat exActive120 (exHome ++ [".gvs", "bin", "go"]) =
      .ok (["home", "u", ".gvs", "bin", "go"], Node.symlink "/home/u/sdk/go1.20/bin/go") ∧
    (removeVersion allowAll (some exHome) exActive120 "1.21").err = none ∧
    lstat (removeVersion allowAll (some exHome) exActive120 "1.21").fs
      (joinPath exHome ["sdk", normalizeVersionName "1.21"]) = .error .ENOENT ∧
    lstat (removeVersion allowAll (some exHome) exActive120 "1.21").fs
      (exHome ++ [".gvs", "bin", "go"]) =
      .ok (["home", "u", ".gvs", "bin", "go"], Node.symlink "/home/u/sdk/go1.20/bin/go") ∧
    (∀ r, lstat exTwoReleases (exHome ++ [".gvs", "bin", "go"]) ≠ .ok r) ∧
    (removeVersion allowAll (some exHome) exTwoReleases "1.21").err = none ∧
    (useVersion allowAll (some exHome) exRelease1221 "1.22.1").err = none ∧
    (removeVersion allowAll (some exHome)
      (useVersion allowAll (some exHome) exRelease1221 "1.22.1").fs "1.22.1").err = none ∧
    lstat (removeVersion allowAll (some exHome)
      (useVersion allowAll (some exHome) exRelease1221 "1.22.1").fs "1.22.1").fs
      (exHome ++ [".gvs", "bin", "go"]) = .error .ENOENT := by
  have hlink : lstat exGvsIsLink (exHome ++ [".gvs", "bin", "go"]) =
      .ok (["data", "gvs", "bin", "go"], Node.symlink "/home/u/sdk/go1.21/bin/go") := by rfl
  have hother : lstat exActive120 (exHome ++ [".gvs", "bin", "go"]) =
      .ok (["home", "u", ".gvs", "bin", "go"], Node.symlink "/home/u/sdk/go1.20/bin/go") := by
    rfl
  have hnone : ∀ r, lstat exTwoReleases (exHome ++ [".gvs", "bin", "go"]) ≠ .ok r := by
    intro r hr
    have h : lstat exTwoReleases (exHome ++ [".gvs", "bin", "go"]) = .error .ENOENT := by rfl
    rw [h] at hr
    cases hr
  have hA := (removeVersion_installed allowAll exHome exGvsIsLink "1.21/"
    ["home", "u", "sdk", "go1.21"] Node.dir (by decide) (by rfl) (by decide)
    (fun _ _ => rfl)).1 ["data", "gvs", "bin", "go"] hlink rfl rfl rfl
  have hB := (removeVersion_installed allowAll exHome exTwoReleases "1.21"
    ["home", "u", "sdk", "go1.21"] Node.dir (by decide) (by rfl) (by decide)
    (fun _ _ => rfl)).2.1 hnone
  have hC := (removeVersion_installed allowAll exHome exActive120 "1.21"
    ["home", "u", "sdk", "go1.21"] Node.dir (by decide) (by rfl) (by decide)
    (fun _ _ => rfl)).2.2.1 ["home", "u", ".gvs", "bin", "go"] "/home/u/sdk/go1.20/bin/go"
    hother (by decide) rfl (by decide)
  have hD := (removeVersion_installed allowAll exHome
    (useVersion allowAll (some exHome) exRelease1221 "1.22.1").fs "1.22.1"
    ["home", "u", "sdk", "go1.22.1"] Node.dir (by decide) (by rfl) (by decide)
    (fun _ _ => rfl)).2.2.2 exRelease1221 (by decide) rfl rfl rfl (fun _ _ _ => rfl)
  exact ⟨by decide, by rfl, hlink, hA.1, hA.2.1, hA.2.2.2, hother, hC.1, hC.2.1, hC.2.2.2,
    hnone, hB.1, by decide, hD.1, hD.2⟩

/-- Counterexamples to C1 as stated for every state. (1) With release
`go1.21` installed and a regular file at `<home>/.gvs/bin/go` no link
exists, yet `removeVersion("1.21")` deletes the release and fails with the
error of `Readlink`. (2) When the system refuses to remove a file of the
release, `removeVersion("1.21")` fails with the error of `RemoveAll` and
the release directory is still there. (3) When `<home>/.gvs` is a link
into release `go1.21` and the active link there points to `go1.20`,
`removeVersion("1.21")` succeeds and the link, which had another target,
is gone. -/
theorem removeVersion_not_for_every_state :
    (isVersionInstalled allowAll (some exHome) exLinkPathIsFile "1.21" = (true, none) ∧
      lstat exLinkPathIsFile (joinPath exHome ["sdk", normalizeVersionName "1.21"]) =
        .ok (["home", "u", "sdk", "go1.21"], Node.dir) ∧
      lstat exLinkPathIsFile (exHome ++ [".gvs", "bin", "go"]) =
        .ok (["home", "u", ".gvs", "bin", "go"], Node.file) ∧
      (removeVersion allowAll (some exHome) exLinkPathIsFile "1.21").err =
        some (Err.readSymlink .EINVAL) ∧
      lstat (removeVersion allowAll (some exHome) exLinkPathIsFile "1.21").fs
        (joinPath exHome ["sdk", normalizeVersionName "1.21"]) = .error .ENOENT) ∧
    (isVersionInstalled denyRemoveBinary (some exHome) exTwoReleases "1.21" = (true, none) ∧
      (∀ r, lstat exTwoReleases (exHome ++ [".gvs", "bin", "go"]) ≠ .ok r) ∧
      removeVersion denyRemoveBinary (some exHome) exTwoReleases "1.21" =
        ⟨exTwoReleases, [], some (Err.removeGoVersion .EACCES)⟩) ∧
    (isVersionInstalled allowAll (some exHome) exGvsInsideRelease "1.21" = (true, none) ∧
      lstat exGvsInsideRelease (exHome ++ [".gvs", "bin", "go"]) =
        .ok (["home", "u", "sdk", "go1.21", "gvs", "bin", "go"],
          Node.symlink "/home/u/sdk/go1.20/bin/go") ∧
      "/home/u/sdk/go1.20/bin/go" ≠
        render (joinPath exHome ["sdk", normalizeVersionName "1.21", "bin", "go"]) ∧
      (removeVersion allowAll (some exHome) exGvsInsideRelease "1.21").err = none ∧
      lstat (removeVersion allowAll (some exHome) exGvsInsideRelease "1.21").fs
        (exHome ++ [".gvs", "bin", "go"]) = .error .ENOENT) := by
  refine ⟨⟨by decide, by rfl, by rfl, by decide, by rfl⟩, ⟨by decide, ?_, by decide⟩,
    ⟨by decide, by rfl, by decide, by decide, by rfl⟩⟩
  intro r hr
  have h : lstat exTwoReleases (exHome ++ [".gvs", "bin", "go"]) = .error .ENOENT := by rfl
  rw [h] at hr
  cases hr
/-! ## Theorems: switching -/

theorem mkdirAllAux_of_dir (deny : Denied) (k : Nat) (fs : FS) (p b : Path)
    (h : stat fs p = .ok (b, Node.dir)) : mkdirAllAux deny k fs p = (fs, none) := by
  cases k with
  | zero => rw [mkdirAllAux, h]
  | succ k => rw [mkdirAllAux, h]

theorem mkdirAll_of_dir (deny : Denied) (fs : FS) (p b : Path)
    (h : stat fs p = .ok (b, Node.dir)) : mkdirAll deny fs p = (fs, none) :=
  mkdirAllAux_of_dir deny _ fs p b h

theorem stat_snoc_missing (fs : FS) (p : Path) (c : String) (hc : validName c = true)
    (par : Path) (hs : stat fs p = .ok (par, Node.dir)) (hn : node fs (par ++ [c]) = none) :
    stat fs (p ++ [c]) = .error .ENOENT := by
  have hl : lstat fs (p ++ [c]) = .error .ENOENT := by
    rw [lstat_snoc fs p c hc, hs, lastStep_dir, hn]
  rw [stat_of_lstat fs _ (by rw [hl]; intro q t hq; cases hq), hl]

theorem stat_snoc_error (fs : FS) (p : Path) (c : String) (hc : validName c = true)
    (e : Errno) (hs : stat fs p = .error e) : stat fs (p ++ [c]) = .error e := by
  have hl : lstat fs (p ++ [c]) = .error e := by
    rw [lstat_snoc fs p c hc, hs]
    rfl
  rw [stat_of_lstat fs _ (by rw [hl]; intro q t hq; cases hq), hl]

theorem stat_snoc_dir (fs : FS) (p : Path) (c : String) (hc : validName c = true)
    (par : Path) (hs : stat fs p = .ok (par, Node.dir))
    (hn : node fs (par ++ [c]) = some Node.dir) :
    stat fs (p ++ [c]) = .ok (par ++ [c], Node.dir) := by
  have hl : lstat fs (p ++ [c]) = .ok (par ++ [c], Node.dir) := by
    rw [lstat_snoc fs p c hc, hs, lastStep_dir, hn]
  rw [stat_of_lstat fs _ (by rw [hl]; intro q t hq; cases hq), hl]

/-- The system call `mkdir` of a missing entry in an existing directory. -/
theorem mkdir_new (deny : Denied) (fs : FS) (p : Path) (c : String) (hc : validName c = true)
    (par : Path) (hs : stat fs p = .ok (par, Node.dir)) (hn : node fs (par ++ [c]) = none)
    (hd : deny Op.mkdir (par ++ [c]) = none) :
    mkdir deny fs (p ++ [c]) = (fs ++ [(par ++ [c], Node.dir)], none) ∧
    stat (fs ++ [(par ++ [c], Node.dir)]) (p ++ [c]) = .ok (par ++ [c], Node.dir) := by
  constructor
  · unfold mkdir
    rw [List.getLast?_concat, List.dropLast_concat]
    simp only [hs, hn, hd]
  · exact stat_snoc_dir _ p c hc par (walk_append fs _ true 40 [] p _ hs)
      (node_append_new fs _ _ hn)

theorem mkdirAllAux_one (deny : Denied) (k : Nat) (fs : FS) (p : Path) (c : String)
    (hc : validName c = true) (par : Path) (hs : stat fs p = .ok (par, Node.dir))
    (hn : node fs (par ++ [c]) = none) (hd : deny Op.mkdir (par ++ [c]) = none) :
    mkdirAllAux deny k fs (p ++ [c]) = (fs ++ [(par ++ [c], Node.dir)], none) := by
  have hmiss := stat_snoc_missing fs p c hc par hs hn
  have hmk := (mkdir_new deny fs p c hc par hs hn hd).1
  cases k with
  | zero =>
    rw [mkdirAllAux, hmiss]
    simp only [mkdirFinish, hmk]
  | succ k =>
    rw [mkdirAllAux, hmiss]
    simp only [List.dropLast_concat, mkdirAllAux_of_dir deny k fs p par hs, mkdirFinish, hmk]

theorem mkdirAllAux_two (deny : Denied) (k : Nat) (fs : FS) (p : Path) (c d : String)
    (hc : validName c = true) (hdv : validName d = true) (par : Path)
    (hs : stat fs p = .ok (par, Node.dir))
    (hn1 : node fs (par ++ [c]) = none) (hn2 : node fs (par ++ [c] ++ [d]) = none)
    (hd1 : deny Op.mkdir (par ++ [c]) = none) (hd2 : deny Op.mkdir (par ++ [c] ++ [d]) = none) :
    mkdirAllAux deny (k + 1) fs (p ++ [c] ++ [d]) =
      (fs ++ [(par ++ [c], Node.dir)] ++ [(par ++ [c] ++ [d], Node.dir)], none) := by
  have hmiss1 := stat_snoc_missing fs p c hc par hs hn1
  have hmiss2 := stat_snoc_error fs (p ++ [c]) d hdv _ hmiss1
  have hone := mkdirAllAux_one deny k fs p c hc par hs hn1 hd1
  have hs1 := (mkdir_new deny fs p c hc par hs hn1 hd1).2
  have hne : par ++ [c] ++ [d] ≠ par ++ [c] := by
    intro h
    have := congrArg List.length h
    simp at this
  have hn2b : node (fs ++ [(par ++ [c], Node.dir)]) (par ++ [c] ++ [d]) = none := by
    rw [node_append_of_ne _ _ _ _ hne, hn2]
  have hmk := (mkdir_new deny _ (p ++ [c]) d hdv (par ++ [c]) hs1 hn2b hd2).1
  rw [mkdirAllAux, hmiss2]
  simp only [List.dropLast_concat, hone, mkdirFinish, hmk]

theorem reads_ne_of_missing (fs : FS) (p : Path) (r : Path × Node) (c : Path)
    (h : stat fs p = .ok r) (hc : node fs c = none) : ∀ q ∈ statReads fs p, q ≠ c := by
  intro q hq hqc
  rw [hqc] at hq
  exact (stat_ok fs p r h).2.1 c hq hc

theorem gvs_split (home : Path) :
    home ++ [".gvs", "bin"] = home ++ [".gvs"] ++ ["bin"] := by simp

/-- The state after `os.MkdirAll` of `<home>/.gvs/bin`, in the three cases
in which it succeeds without meeting a non-directory: the directory is
there; `.gvs` is there and `bin` is missing; `.gvs` is missing. -/
theorem bin_made (deny : Denied) (home : Path) (fs : FS) (b vd : Path) (r : Path × Node)
    (hvd : stat fs vd = .ok r)
    (hcase :
      (stat fs (home ++ [".gvs", "bin"]) = .ok (b, Node.dir) ∧
        (∀ q ∈ statReads fs (home ++ [".gvs", "bin"]), q ≠ b ++ ["go"]) ∧
        (∀ q ∈ statReads fs vd, q ≠ b ++ ["go"]) ∧
        (node fs (b ++ ["go"]) = some Node.dir → hasChildren fs (b ++ ["go"]) = false)) ∨
      (∃ g, stat fs (home ++ [".gvs"]) = .ok (g, Node.dir) ∧ b = g ++ ["bin"] ∧
        node fs b = none ∧ node fs (b ++ ["go"]) = none ∧ deny Op.mkdir b = none) ∨
      (∃ h, stat fs home = .ok (h, Node.dir) ∧ b = h ++ [".gvs"] ++ ["bin"] ∧
        node fs (h ++ [".gvs"]) = none ∧ node fs b = none ∧ node fs (b ++ ["go"]) = none ∧
        deny Op.mkdir (h ++ [".gvs"]) = none ∧ deny Op.mkdir b = none)) :
    ∃ fs1, mkdirAll deny fs (home ++ [".gvs", "bin"]) = (fs1, none) ∧
      stat fs1 (home ++ [".gvs", "bin"]) = .ok (b, Node.dir) ∧
      stat fs1 vd = .ok r ∧
      (∀ q ∈ statReads fs1 (home ++ [".gvs", "bin"]), q ≠ b ++ ["go"]) ∧
      (∀ q ∈ statReads fs1 vd, q ≠ b ++ ["go"]) ∧
      (node fs1 (b ++ ["go"]) = some Node.dir → hasChildren fs1 (b ++ ["go"]) = false) := by
  have hne1 : ∀ (x : Path) (c : String), x ++ [c] ≠ x := by
    intro x c h
    have := congrArg List.length h
    simp at this
  have hne3 : ∀ (x : Path) (c d : String), x ++ [c] ++ [d] ≠ x := by
    intro x c d h
    have := congrArg List.length h
    simp at this
  rcases hcase with ⟨hs, h4, h3, hch⟩ | ⟨g, hg, hb, hn1, hn2, hd⟩ | ⟨h, hh, hb, hn0, hn1, hn2, hd0, hd1⟩
  · exact ⟨fs, mkdirAll_of_dir deny fs _ b hs, hs, hvd, h4, h3, hch⟩
  · subst hb
    have hmk : mkdirAll deny fs (home ++ [".gvs", "bin"]) =
        (fs ++ [(g ++ ["bin"], Node.dir)], none) := by
      unfold mkdirAll
      rw [gvs_split]
      exact mkdirAllAux_one deny _ fs _ "bin" (by decide) g hg hn1 hd
    have hs1 : stat (fs ++ [(g ++ ["bin"], Node.dir)]) (home ++ [".gvs", "bin"]) =
        .ok (g ++ ["bin"], Node.dir) := by
      rw [gvs_split]
      exact (mkdir_new deny fs _ "bin" (by decide) g hg hn1 hd).2
    have hvd1 := walk_append fs [(g ++ ["bin"], Node.dir)] true 40 [] vd r hvd
    have hmiss : node (fs ++ [(g ++ ["bin"], Node.dir)]) (g ++ ["bin"] ++ ["go"]) = none := by
      rw [node_append_of_ne _ _ _ _ (hne1 _ _), hn2]
    refine ⟨_, hmk, hs1, hvd1, reads_ne_of_missing _ _ _ _ hs1 hmiss,
      reads_ne_of_missing _ _ _ _ hvd1 hmiss, ?_⟩
    intro hdir
    rw [hmiss] at hdir
    cases hdir
  · subst hb
    have hlen : (home ++ [".gvs"] ++ ["bin"]).length - 1 = home.length + 1 := by simp
    have hmk : mkdirAll deny fs (home ++ [".gvs", "bin"]) =
        (fs ++ [(h ++ [".gvs"], Node.dir)] ++ [(h ++ [".gvs"] ++ ["bin"], Node.dir)], none) := by
      unfold mkdirAll
      rw [gvs_split, hlen]
      exact mkdirAllAux_two deny _ fs home ".gvs" "bin" (by decide) (by decide) h hh hn0 hn1
        hd0 hd1
    have hs0 := (mkdir_new deny fs home ".gvs" (by decide) h hh hn0 hd0).2
    have hn1b : node (fs ++ [(h ++ [".gvs"], Node.dir)]) (h ++ [".gvs"] ++ ["bin"]) = none := by
      rw [node_append_of_ne _ _ _ _ (hne1 _ _), hn1]
    have hs1 : stat (fs ++ [(h ++ [".gvs"], Node.dir)] ++
        [(h ++ [".gvs"] ++ ["bin"], Node.dir)]) (home ++ [".gvs", "bin"]) =
        .ok (h ++ [".gvs"] ++ ["bin"], Node.dir) := by
      rw [gvs_split]
      exact (mkdir_new deny _ _ "bin" (by decide) (h ++ [".gvs"]) hs0 hn1b hd1).2
    have hvd1 := walk_append _ [(h ++ [".gvs"] ++ ["bin"], Node.dir)] true 40 [] vd r
      (walk_append fs [(h ++ [".gvs"], Node.dir)] true 40 [] vd r hvd)
    have hmiss : node (fs ++ [(h ++ [".gvs"], Node.dir)] ++
        [(h ++ [".gvs"] ++ ["bin"], Node.dir)]) (h ++ [".gvs"] ++ ["bin"] ++ ["go"]) = none := by
      rw [node_append_of_ne _ _ _ _ (hne1 _ _), node_append_of_ne _ _ _ _ (hne3 _ _ _), hn2]
    refine ⟨_, hmk, hs1, hvd1, reads_ne_of_missing _ _ _ _ hs1 hmiss,
      reads_ne_of_missing _ _ _ _ hvd1 hmiss, ?_⟩
    intro hdir
    rw [hmiss] at hdir
    cases hdir

theorem lstat_link_path (fs : FS) (home b : Path)
    (hbin : stat fs (home ++ [".gvs", "bin"]) = .ok (b, Node.dir)) :
    lstat fs (home ++ [".gvs", "bin", "go"]) =
      match node fs (b ++ ["go"]) with
      | some m => .ok (b ++ ["go"], m)
      | none => .error .ENOENT := by
  rw [link_split, lstat_snoc fs _ "go" (by decide), hbin, lastStep_dir]

theorem lookupNode_of_node_none (fs : FS) (p : Path) (h : node fs p = none) :
    lookupNode fs p = none := by
  unfold node at h
  by_cases hp : p = []
  · simp [hp] at h
  · simpa [hp] using h

/-- The removal of whatever is at the link path, as `useVersion` does it. -/
theorem unlink_existing (deny : Denied) (fs1 : FS) (home b : Path)
    (hbin : stat fs1 (home ++ [".gvs", "bin"]) = .ok (b, Node.dir))
    (hd1 : deny Op.lstat (home ++ [".gvs", "bin", "go"]) = none)
    (hd2 : deny Op.remove (b ++ ["go"]) = none)
    (hch : node fs1 (b ++ ["go"]) = some Node.dir → hasChildren fs1 (b ++ ["go"]) = false) :
    (match osLstat deny fs1 (home ++ [".gvs", "bin", "go"]) with
      | .ok _ => remove deny fs1 (home ++ [".gvs", "bin", "go"])
      | .error _ => (fs1, none)) =
      (fs1.filter fun e => decide (e.1 ≠ b ++ ["go"]), none) := by
  have hls := lstat_link_path fs1 home b hbin
  cases hn : node fs1 (b ++ ["go"]) with
  | none =>
    rw [hn] at hls
    unfold osLstat
    rw [hd1, hls, filter_of_lookupNode_none _ _ (lookupNode_of_node_none _ _ hn)]
  | some m =>
    rw [hn] at hls
    rw [osLstat_of_ok deny fs1 _ _ m hd1 hls]
    simp only
    unfold remove
    rw [hls]
    simp only [hd2]
    cases m with
    | dir =>
      simp only [hch hn]
      simp
    | file => rfl
    | symlink t => rfl

/-- The creation of the link once nothing is at the link path. -/
theorem symlink_new (deny : Denied) (fs2 : FS) (home b : Path) (target : String)
    (hbin : stat fs2 (home ++ [".gvs", "bin"]) = .ok (b, Node.dir))
    (hno : node fs2 (b ++ ["go"]) = none)
    (hd : deny Op.symlink (b ++ ["go"]) = none) :
    symlink deny fs2 target (home ++ [".gvs", "bin", "go"]) =
      (fs2 ++ [(b ++ ["go"], Node.symlink target)], none) ∧
    lstat (fs2 ++ [(b ++ ["go"], Node.symlink target)]) (home ++ [".gvs", "bin", "go"]) =
      .ok (b ++ ["go"], Node.symlink target) ∧
    stat (fs2 ++ [(b ++ ["go"], Node.symlink target)]) (home ++ [".gvs", "bin"]) =
      .ok (b, Node.dir) := by
  have hls := lstat_link_path fs2 home b hbin
  rw [hno] at hls
  have hbin3 := walk_append fs2 [(b ++ ["go"], Node.symlink target)] true 40 [] _ _ hbin
  refine ⟨?_, ?_, hbin3⟩
  · unfold symlink
    rw [hls]
    simp only
    rw [link_split, List.getLast?_concat, List.dropLast_concat]
    simp only [hbin, hd]
  · rw [lstat_link_path _ home b hbin3, node_append_new fs2 _ _ hno]

theorem node_unlinked (fs1 : FS) (c : Path) (hc : c ≠ []) :
    node (fs1.filter fun e => decide (e.1 ≠ c)) c = none := by
  unfold node
  simp only [hc, if_false]
  rw [lookupNode_filter (fun k => decide (k ≠ c))]
  simp

theorem filter_link_idem (fs1 : FS) (l : Path) (n : Node) :
    ((fs1.filter fun e => decide (e.1 ≠ l)) ++ [(l, n)]).filter (fun e => decide (e.1 ≠ l)) =
      fs1.filter fun e => decide (e.1 ≠ l) := by
  rw [List.filter_append, List.filter_filter]
  simp

theorem isVersionInstalled_of_stat (deny : Denied) (home : Path) (fs fs3 : FS) (v : String)
    (r : Path × Node)
    (hinst : isVersionInstalled deny (some home) fs v = (true, none))
    (h3 : stat fs3 (joinPath home ["sdk", normalizeVersionName v]) = .ok r) :
    isVersionInstalled deny (some home) fs3 v = (true, none) := by
  unfold isVersionInstalled osStat at hinst ⊢
  cases hd : deny Op.stat (joinPath home ["sdk", normalizeVersionName v]) with
  | some d =>
    simp only [hd] at hinst
    cases d <;> simp [Denial.errno] at hinst
  | none =>
    simp only [hd, h3]

/-- What `useVersion` computes once `<home>/.gvs/bin` has been made. -/
theorem useVersion_reduce (deny : Denied) (home : Path) (fs fs1 : FS) (v : String)
    (hinst : isVersionInstalled deny (some home) fs v = (true, none))
    (hmk : mkdirAll deny fs (home ++ [".gvs", "bin"]) = (fs1, none)) :
    useVersion deny (some home) fs v =
      match (match osLstat deny fs1 (home ++ [".gvs", "bin", "go"]) with
        | .ok _ => remove deny fs1 (home ++ [".gvs", "bin", "go"])
        | .error _ => (fs1, none)) with
      | (fs2, some e) => ⟨fs2, [], some (Err.removeExistingSymlink e)⟩
      | (fs2, none) =>
        match symlink deny fs2
            (render (joinPath home ["sdk", normalizeVersionName v, "bin", "go"]))
            (home ++ [".gvs", "bin", "go"]) with
        | (fs3, some e) => ⟨fs3, [], some (Err.createSymlink e)⟩
        | (fs3, none) =>
          ⟨fs3,
            ["Now using Go " ++ v, "Please add the following to your shell's config file:",
              "export PATH=" ++ render (home ++ [".gvs", "bin"]) ++ ":$PATH"],
            none⟩ := by
  obtain ⟨hb, hl⟩ := link_names home
  unfold useVersion
  simp only [hinst, hb, hl, hmk]

theorem stat_unlink_same (fs : FS) (c p : Path) (h : ∀ q ∈ statReads fs p, q ≠ c) :
    stat (fs.filter fun e => decide (e.1 ≠ c)) p = stat fs p :=
  walk_filter_same fs (fun q => decide (q ≠ c)) true 40 [] p
    (fun q hq => Or.inr (by simpa using h q hq))

/-- C2 (amended): let `useVersion(v)` find the release (`isVersionInstalled`
is true), let `b` be the resolved path of `<home>/.gvs/bin`, where either
that directory exists (and neither its path nor the release path is
resolved through the entry `b/go`, which is no directory with entries in
it), or `<home>/.gvs` is a directory and `bin` is missing in it, or `<home>`
is a directory and `.gvs` is missing in it; let the system refuse none of
`Mkdir` of the missing directories, `Lstat` of the link path, removal and
creation of the entry `b/go`. Then `useVersion(v)` succeeds, afterwards the
link `<home>/.gvs/bin/go` exists with target `<home>/sdk/normalize(v)/bin/go`
whatever was at the link path before, and a second `useVersion(v)` succeeds
and leaves the state and the output of the first call. -/
theorem useVersion_installed (deny : Denied) (home : Path) (fs : FS) (v : String) (b : Path)
    (hinst : isVersionInstalled deny (some home) fs v = (true, none))
    (hbin :
      (stat fs (home ++ [".gvs", "bin"]) = .ok (b, Node.dir) ∧
        (∀ q ∈ statReads fs (home ++ [".gvs", "bin"]), q ≠ b ++ ["go"]) ∧
        (∀ q ∈ statReads fs (joinPath home ["sdk", normalizeVersionName v]), q ≠ b ++ ["go"]) ∧
        (node fs (b ++ ["go"]) = some Node.dir → hasChildren fs (b ++ ["go"]) = false)) ∨
      (∃ g, stat fs (home ++ [".gvs"]) = .ok (g, Node.dir) ∧ b = g ++ ["bin"] ∧
        node fs b = none ∧ node fs (b ++ ["go"]) = none ∧ deny Op.mkdir b = none) ∨
      (∃ h, stat fs home = .ok (h, Node.dir) ∧ b = h ++ [".gvs"] ++ ["bin"] ∧
        node fs (h ++ [".gvs"]) = none ∧ node fs b = none ∧ node fs (b ++ ["go"]) = none ∧
        deny Op.mkdir (h ++ [".gvs"]) = none ∧ deny Op.mkdir b = none))
    (hd1 : deny Op.lstat (home ++ [".gvs", "bin", "go"]) = none)
    (hd2 : deny Op.remove (b ++ ["go"]) = none)
    (hd3 : deny Op.symlink (b ++ ["go"]) = none) :
    (useVersion deny (some home) fs v).err = none ∧
    lstat (useVersion deny (some home) fs v).fs (home ++ [".gvs", "bin", "go"]) =
      .ok (b ++ ["go"],
        Node.symlink (render (joinPath home ["sdk", normalizeVersionName v, "bin", "go"]))) ∧
    useVersion deny (some home) (useVersion deny (some home) fs v).fs v =
      useVersion deny (some home) fs v := by
  obtain ⟨r, hvd⟩ := stat_ok_of_installed deny home fs v hinst
  obtain ⟨fs1, hmk, hs1, hvd1, h4, h3, hch⟩ := bin_made deny home fs b _ r hvd hbin
  have hs2 : stat (fs1.filter fun e => decide (e.1 ≠ b ++ ["go"])) (home ++ [".gvs", "bin"]) =
      .ok (b, Node.dir) := by
    rw [stat_unlink_same fs1 _ _ h4, hs1]
  have hvd2 : stat (fs1.filter fun e => decide (e.1 ≠ b ++ ["go"]))
      (joinPath home ["sdk", normalizeVersionName v]) = .ok r := by
    rw [stat_unlink_same fs1 _ _ h3, hvd1]
  have hno2 := node_unlinked fs1 (b ++ ["go"]) (by simp)
  obtain ⟨hsym, hlink3, hs3⟩ := symlink_new deny _ home b
    (render (joinPath home ["sdk", normalizeVersionName v, "bin", "go"])) hs2 hno2 hd3
  have hfirst : useVersion deny (some home) fs v =
      ⟨(fs1.filter fun e => decide (e.1 ≠ b ++ ["go"])) ++
          [(b ++ ["go"], Node.symlink
            (render (joinPath home ["sdk", normalizeVersionName v, "bin", "go"])))],
        ["Now using Go " ++ v, "Please add the following to your shell's config file:",
          "export PATH=" ++ render (home ++ [".gvs", "bin"]) ++ ":$PATH"],
        none⟩ := by
    rw [useVersion_reduce deny home fs fs1 v hinst hmk,
      unlink_existing deny fs1 home b hs1 hd1 hd2 hch]
    simp only [hsym]
  have hinst3 := isVersionInstalled_of_stat deny home fs _ v r hinst
    (walk_append _ [(b ++ ["go"], Node.symlink
      (render (joinPath home ["sdk", normalizeVersionName v, "bin", "go"])))] true 40 [] _ r hvd2)
  have hch3 : node ((fs1.filter fun e => decide (e.1 ≠ b ++ ["go"])) ++
      [(b ++ ["go"], Node.symlink
        (render (joinPath home ["sdk", normalizeVersionName v, "bin", "go"])))])
      (b ++ ["go"]) = some Node.dir →
      hasChildren ((fs1.filter fun e => decide (e.1 ≠ b ++ ["go"])) ++
        [(b ++ ["go"], Node.symlink
          (render (joinPath home ["sdk", normalizeVersionName v, "bin", "go"])))])
        (b ++ ["go"]) = false := by
    intro hdir
    rw [node_append_new _ _ _ hno2] at hdir
    cases hdir
  have hsecond : useVersion deny (some home)
      ((fs1.filter fun e => decide (e.1 ≠ b ++ ["go"])) ++
        [(b ++ ["go"], Node.symlink
          (render (joinPath home ["sdk", normalizeVersionName v, "bin", "go"])))]) v =
      ⟨(fs1.filter fun e => decide (e.1 ≠ b ++ ["go"])) ++
          [(b ++ ["go"], Node.symlink
            (render (joinPath home ["sdk", normalizeVersionName v, "bin", "go"])))],
        ["Now using Go " ++ v, "Please add the following to your shell's config file:",
          "export PATH=" ++ render (home ++ [".gvs", "bin"]) ++ ":$PATH"],
        none⟩ := by
    rw [useVersion_reduce deny home _ _ v hinst3 (mkdirAll_of_dir deny _ _ b hs3),
      unlink_existing deny _ home b hs3 hd1 hd2 hch3, filter_link_idem]
    simp only [hsym]
  refine ⟨?_, ?_, ?_⟩
  · rw [hfirst]
  · rw [hfirst]
    exact hlink3
  · rw [hfirst]
    exact hsecond


/-- Witness of C2 (amended): `useVersion("1.21")` with no `/home/u/.gvs`;
`useVersion("1.20/")` where `/home/u/.gvs` is a link to `/data/gvs` and the
active link there points to `go1.21`; `useVersion("go1.21")` with a regular
file at the link path. -/
theorem useVersion_installed_witness :
    isVersionInstalled allowAll (some exHome) exTwoReleases "1.21" = (true, none) ∧
    (useVersion allowAll (some exHome) exTwoReleases "1.21").err = none ∧
    lstat (useVersion allowAll (some exHome) exTwoReleases "1.21").fs
      (exHome ++ [".gvs", "bin", "go"]) =
      .ok (["home", "u", ".gvs", "bin", "go"], Node.symlink "/home/u/sdk/go1.21/bin/go") ∧
    useVersion allowAll (some exHome)
      (useVersion allowAll (some exHome) exTwoReleases "1.21").fs "1.21" =
      useVersion allowAll (some exHome) exTwoReleases "1.21" ∧
    isVersionInstalled allowAll (some exHome) exGvsIsLink "1.20/" = (true, none) ∧
    stat exGvsIsLink (exHome ++ [".gvs", "bin"]) = .ok (["data", "gvs", "bin"], Node.dir) ∧
    (useVersion allowAll (some exHome) exGvsIsLink "1.20/").err = none ∧
    lstat (useVersion allowAll (some exHome) exGvsIsLink "1.20/").fs
      (exHome ++ [".gvs", "bin", "go"]) =
      .ok (["data", "gvs", "bin", "go"], Node.symlink "/home/u/sdk/go1.20/bin/go") ∧
    useVersion allowAll (some exHome)
      (useVersion allowAll (some exHome) exGvsIsLink "1.20/").fs "1.20/" =
      useVersion allowAll (some exHome) exGvsIsLink "1.20/" ∧
    lstat exLinkPathIsFile (exHome ++ [".gvs", "bin", "go"]) =
      .ok (["home", "u", ".gvs", "bin", "go"], Node.file) ∧
    (useVersion allowAll (some exHome) exLinkPathIsFile "go1.21").err = none ∧
    lstat (useVersion allowAll (some exHome) exLinkPathIsFile "go1.21").fs
      (exHome ++ [".gvs", "bin", "go"]) =
      .ok (["home", "u", ".gvs", "bin", "go"], Node.symlink "/home/u/sdk/go1.21/bin/go") := by
  have hA := useVersion_installed allowAll exHome exTwoReleases "1.21"
    ["home", "u", ".gvs", "bin"] (by decide)
    (Or.inr (Or.inr ⟨["home", "u"], by rfl, by decide, by decide, by decide, by decide,
      rfl, rfl⟩)) rfl rfl rfl
  have hB := useVersion_installed allowAll exHome exGvsIsLink "1.20/"
    ["data", "gvs", "bin"] (by decide)
    (Or.inl ⟨by rfl, by decide, by decide, by decide⟩) rfl rfl rfl
  have hC := useVersion_installed allowAll exHome exLinkPathIsFile "go1.21"
    ["home", "u", ".gvs", "bin"] (by decide)
    (Or.inl ⟨by rfl, by decide, by decide, by decide⟩) rfl rfl rfl
  exact ⟨by decide, hA.1, hA.2.1, hA.2.2, by decide, by rfl, hB.1, hB.2.1, hB.2.2, by rfl,
    hC.1, hC.2.1⟩

/-- Counterexamples to C2 as stated for every state. (1) With release
`go1.21` installed and a regular file at `<home>/.gvs`, `useVersion("1.21")`
fails with the error of `MkdirAll` and creates no link. (2) With a
directory that is not empty at the link path it fails with the error of
`Remove`. (3) When the directory `<home>/.gvs/bin` cannot be written,
`useVersion("1.21")` fails with the error of `Remove` where a link is
there, and with the error of `Symlink` where none is. -/
theorem useVersion_not_for_every_state :
    (isVersionInstalled allowAll (some exHome) exGvsIsFile "1.21" = (true, none) ∧
      stat exGvsIsFile (joinPath exHome ["sdk", normalizeVersionName "1.21"]) =
        .ok (["home", "u", "sdk", "go1.21"], Node.dir) ∧
      useVersion allowAll (some exHome) exGvsIsFile "1.21" =
        ⟨exGvsIsFile, [], some (Err.createBinDir .ENOTDIR)⟩) ∧
    (isVersionInstalled allowAll (some exHome) exLinkPathIsDir "1.21" = (true, none) ∧
      useVersion allowAll (some exHome) exLinkPathIsDir "1.21" =
        ⟨exLinkPathIsDir, [], some (Err.removeExistingSymlink .ENOTEMPTY)⟩) ∧
    (isVersionInstalled denyBinWrites (some exHome) exActive120 "1.21" = (true, none) ∧
      useVersion denyBinWrites (some exHome) exActive120 "1.21" =
        ⟨exActive120, [], some (Err.removeExistingSymlink .EACCES)⟩ ∧
      (useVersion denyBinWrites (some exHome) exTwoReleases "1.21").err =
        some (Err.createSymlink .EACCES)) := by
  refine ⟨⟨by decide, by rfl, by decide⟩, ⟨by decide, by decide⟩, by decide, by decide,
    by decide⟩

end Gvs
